import Mathlib

/-!
Verification of the backward-reference selector of `enc/backward_references.c`
(`ComputeDistanceCode`, the zopfli node array, the start-position queue, the
distance-cache reconstruction, the shortest-path back-trace and the command
emitter) against its natural-language specification.

Shallow embedding conventions:
* `size_t` / `uint32_t` values are `Nat`, with `% 2^32` (resp. a cast through
  `% 2^64`) written out exactly where the C code truncates;
* C `int` values are `Int`; the C cast `(size_t)x` of an `int` is `sizeT x`;
* `float` cost values are `WithTop ℚ`, `kInfinity` being `⊤` (the code only
  ever compares costs, so only the ordered field structure matters);
* the `union { float cost; uint32_t next; }` inside `ZopfliNode` is the sum
  type `ZNodeU`; reading the member that was not stored is modelled as a junk
  value (reads of that kind never happen under the stated invariants);
* loops whose termination depends on data invariants are given explicit fuel
  (always sufficient under the invariants) and return `Option`, `none`
  standing for divergence / out-of-bounds access of the C original.
-/

/-- The C cast `(size_t)x` of an `int` value: two's-complement reduction
modulo `2^64` into a natural number. -/
def sizeT (x : ℤ) : ℕ := (x % (2 ^ 64 : ℤ)).toNat

/-- The persistent four-entry distance cache `int dist_cache[4]`. -/
structure DistCache where
  d0 : ℤ
  d1 : ℤ
  d2 : ℤ
  d3 : ℤ
deriving DecidableEq, Repr

/-- Array read `dist_cache[i]` (all reads in the source use `i ≤ 3`). -/
def DistCache.get (c : DistCache) : ℕ → ℤ
  | 0 => c.d0
  | 1 => c.d1
  | 2 => c.d2
  | 3 => c.d3
  | _ => 0

/-- The cache as the list `[d0, d1, d2, d3]` (index order). -/
def DistCache.toList (c : DistCache) : List ℤ := [c.d0, c.d1, c.d2, c.d3]

/-- The shift performed by the emitter on a qualifying command:
`cache[3..1] ← cache[2..0]; cache[0] ← d`. -/
def DistCache.shift (c : DistCache) (d : ℤ) : DistCache := ⟨d, c.d0, c.d1, c.d2⟩

/-- Rebuild a cache from a collected prefix `l` (at most 4 entries), padding
the remaining slots, in order, from `start`; this is the final state of the
output array of `ComputeDistanceCache`. -/
def DistCache.ofPadded (l : List ℤ) (start : DistCache) : DistCache :=
  match (l ++ start.toList) with
  | a :: b :: c :: d :: _ => ⟨a, b, c, d⟩
  | _ => start

/-- Modelled from the spec: `kDistanceCacheIndex` from `common/constants.h`
(not under `src/`), the published container constant mapping each of the 16
distance short codes to a cache slot (§6: "short codes 0..3 are cache slots,
4..15 are small perturbations of cache slots"). -/
def kDistanceCacheIndex : ℕ → ℕ := fun k =>
  [0, 1, 2, 3, 0, 0, 0, 0, 0, 0, 1, 1, 1, 1, 1, 1].getD k 0

/-- Modelled from the spec: `kDistanceCacheOffset` from `common/constants.h`
(not under `src/`), the published container constant giving the additive
perturbation of each distance short code. -/
def kDistanceCacheOffset : ℕ → ℤ := fun k =>
  [0, 0, 0, 0, -1, 1, -2, 2, -3, 3, -1, 1, -2, 2, -3, 3].getD k 0

/-- The static lower-bound table `kLimits` local to `ComputeDistanceCode`. -/
def kLimits : ℕ → ℕ := fun k =>
  [0, 0, 0, 0, 6, 6, 11, 11, 11, 11, 11, 11, 12, 12, 12, 12].getD k 0

/-- The `for (k = 4; k < BROTLI_NUM_DISTANCE_SHORT_CODES; ++k)` search of
`ComputeDistanceCode`, returning the first matching short code and falling
through to `distance + 15`; `fuel` counts the remaining iterations
(`16 - k`). -/
def findShortCodeFrom (distance : ℕ) (dist_cache : DistCache) : ℕ → ℕ → ℕ
  | 0, _ => distance + 15
  | fuel + 1, k =>
    if distance = sizeT (dist_cache.get (kDistanceCacheIndex k) + kDistanceCacheOffset k)
        ∧ kLimits k ≤ distance then k
    else findShortCodeFrom distance dist_cache fuel (k + 1)

/-- Embedding of `ComputeDistanceCode` (backward_references.c, lines
221–250).  `brotlirep` is the process-global flag the function reads; all
other state it consults is in its argument list. -/
def ComputeDistanceCode (brotlirep : Bool) (distance max_distance : ℕ)
    (quality : ℤ) (dist_cache : DistCache) : ℕ :=
  if brotlirep ∧ distance ≤ max_distance then
    if distance = sizeT (dist_cache.get 0) then 0
    else if distance = sizeT (dist_cache.get 1) then 1
    else if distance = sizeT (dist_cache.get 2) then 2
    else if distance = sizeT (dist_cache.get 3) then 3
    else if 3 < quality ∧ 6 ≤ distance then
      findShortCodeFrom distance dist_cache 12 4
    else distance + 15
  else distance + 15

/-- Predicate, from the claim: `k` is a short code admissible for `distance`
given `quality` and the cache — either a direct cache hit (codes 0..3) or a
perturbed cache hit (codes 4..15, with the quality/distance gate and the
lower-bound table). -/
def ShortCodeMatch (distance : ℕ) (quality : ℤ) (dist_cache : DistCache) (k : ℕ) : Prop :=
  (k < 4 ∧ distance = sizeT (dist_cache.get k)) ∨
  (4 ≤ k ∧ k < 16 ∧ 3 < quality ∧ 6 ≤ distance ∧
    distance = sizeT (dist_cache.get (kDistanceCacheIndex k) + kDistanceCacheOffset k) ∧
    kLimits k ≤ distance)

instance (d : ℕ) (q : ℤ) (c : DistCache) (k : ℕ) : Decidable (ShortCodeMatch d q c k) := by
  unfold ShortCodeMatch
  infer_instance

/-- Modelled from the spec: the `Command` record of `enc/command.h` (not
under `src/`).  §6 and the glossary give a command as the quadruple
`(insert_length, copy_length, length_code, distance_code)` together with the
derived prefix symbols; the cost re-fit reads `insert_len_`, the raw copy
length (`CommandCopyLen`), `cmd_prefix_` and `dist_prefix_`. -/
structure Command where
  insert_len_ : ℕ
  copy_len_ : ℕ
  cmd_prefix_ : ℕ
  dist_prefix_ : ℕ
deriving DecidableEq, Repr

/-- Modelled from the spec: `CommandCopyLen` of `enc/command.h` (not under
`src/`) reads the raw copy length of a command. -/
def CommandCopyLen (c : Command) : ℕ := c.copy_len_

/-- Embedding of `SetCost` (backward_references.c, lines 97–118).  The
external `FastLog2` of `enc/fast_log.h` (not under `src/`) is a parameter
`flog2`; the cost vector is built per index exactly as the C loop does:
`log2sum + 2` for zero entries, otherwise the Shannon estimate clamped below
at 1 bit. -/
def SetCost (flog2 : ℕ → ℚ) (histogram : List ℕ) : List ℚ :=
  let sum := histogram.sum
  let log2sum := flog2 sum
  histogram.map (fun h =>
    if h = 0 then log2sum + 2
    else if log2sum - flog2 h < 1 then 1 else log2sum - flog2 h)

/-- Increment of one histogram bucket, `histogram[i]++`. -/
def bumpHist (h : ℕ → ℕ) (i : ℕ) : ℕ → ℕ := fun j => if j = i then h j + 1 else h j

/-- State of the histogram-accumulation loop of
`ZopfliCostModelSetFromCommands`. -/
structure HistState where
  lit : ℕ → ℕ
  cmd : ℕ → ℕ
  dist : ℕ → ℕ
  pos : ℕ

/-- One iteration of the command loop of `ZopfliCostModelSetFromCommands`:
count the command symbol, count the distance symbol only when
`cmdcode >= 128`, count the literals of the insert run, advance `pos`. -/
def histStep (ringbuffer : ℕ → ℕ) (ringbuffer_mask : ℕ) (st : HistState)
    (c : Command) : HistState :=
  let inslength := c.insert_len_
  let copylength := CommandCopyLen c
  let distcode := c.dist_prefix_
  let cmdcode := c.cmd_prefix_
  let cmd' := bumpHist st.cmd cmdcode
  let dist' := if 128 ≤ cmdcode then bumpHist st.dist distcode else st.dist
  let lit' := (List.range inslength).foldl
    (fun h j => bumpHist h (ringbuffer ((st.pos + j) &&& ringbuffer_mask))) st.lit
  ⟨lit', cmd', dist', st.pos + inslength + copylength⟩

/-- Embedding of the histogram-accumulation part of
`ZopfliCostModelSetFromCommands` (backward_references.c, lines 120–175):
the literal, command and distance histograms collected over the provisional
command list (the subsequent `SetCost` calls and the literal prefix-sum
rebuild consume them). -/
def ZopfliCostModelHistograms (position : ℕ) (ringbuffer : ℕ → ℕ)
    (ringbuffer_mask : ℕ) (commands : List Command)
    (last_insert_len : ℕ) : HistState :=
  commands.foldl (histStep ringbuffer ringbuffer_mask)
    ⟨fun _ => 0, fun _ => 0, fun _ => 0, position - last_insert_len⟩

/-- Union member `u` of `ZopfliNode`: a `float cost` before the back-trace,
a `uint32_t next` after it.  Reading the member that was not stored would
reinterpret raw bits in C; the accessors below return junk values in that
case and the stated invariants keep every read on the stored member. -/
inductive ZNodeU where
  | cost : WithTop ℚ → ZNodeU
  | next : ℕ → ZNodeU
deriving DecidableEq

/-- Embedding of `ZopfliNode` (backward_references.h / backward_references.c
lines 49–69): `length` packs the copy length (low 24 bits) with the
length-code modifier (high 8 bits), `distance` packs the distance (low 25
bits) with the short-code index (high 7 bits). -/
structure ZopfliNode where
  length : ℕ
  distance : ℕ
  insert_length : ℕ
  u : ZNodeU
deriving DecidableEq

/-- The cost member of the union, `⊤` (= `kInfinity`) as junk on a
`next`-state union. -/
def ZNodeU.costVal : ZNodeU → WithTop ℚ
  | .cost c => c
  | .next _ => ⊤

/-- The stub node of `BrotliInitZopfliNodes`: `length = 1`, `distance = 0`,
`insert_length = 0`, `cost = kInfinity`. -/
def zopfliStubNode : ZopfliNode := ⟨1, 0, 0, ZNodeU.cost ⊤⟩

/-- Embedding of `BrotliInitZopfliNodes`: every position holds the stub. -/
def BrotliInitZopfliNodes : ℕ → ZopfliNode := fun _ => zopfliStubNode

/-- Embedding of `ZopfliNodeCopyLength`. -/
def ZopfliNodeCopyLength (n : ZopfliNode) : ℕ := n.length &&& 0xffffff

/-- Embedding of `ZopfliNodeLengthCode`. -/
def ZopfliNodeLengthCode (n : ZopfliNode) : ℕ :=
  ZopfliNodeCopyLength n + 9 - (n.length >>> 24)

/-- Embedding of `ZopfliNodeCopyDistance`. -/
def ZopfliNodeCopyDistance (n : ZopfliNode) : ℕ := n.distance &&& 0x1ffffff

/-- Embedding of `ZopfliNodeDistanceCode` (`short_code` is the local
`self->distance >> 25`). -/
def ZopfliNodeDistanceCode (n : ZopfliNode) : ℕ :=
  if n.distance >>> 25 = 0 then ZopfliNodeCopyDistance n + 15
  else n.distance >>> 25 - 1

/-- Embedding of `ZopfliNodeCommandLength`. -/
def ZopfliNodeCommandLength (n : ZopfliNode) : ℕ :=
  ZopfliNodeCopyLength n + n.insert_length

/-- Embedding of `UpdateZopfliNode` (backward_references.c, lines 255–263):
write the packed node record at `nodes[pos + len]`; the `uint32_t` stores
truncate modulo `2^32`. -/
def UpdateZopfliNode (nodes : ℕ → ZopfliNode)
    (pos start_pos len len_code dist short_code : ℕ)
    (cost : WithTop ℚ) : ℕ → ZopfliNode :=
  fun j =>
    if j = pos + len then
      ⟨(len ||| ((len + 9 - len_code) <<< 24)) % 2 ^ 32,
       (dist ||| (short_code <<< 25)) % 2 ^ 32,
       (pos - start_pos) % 2 ^ 32,
       ZNodeU.cost cost⟩
    else nodes j

/-- Entry of the start-position queue (`PosData`): a position, the snapshot
of the distance cache on the best path to it, and the cost difference
against the pure-literal encoding (`float costdiff`, modelled in `ℚ`). -/
structure PosData where
  pos : ℕ
  distance_cache : DistCache
  costdiff : ℚ
deriving DecidableEq, Repr

instance : Inhabited PosData := ⟨⟨0, ⟨0, 0, 0, 0⟩, 0⟩⟩

/-- The ring-buffer-backed start-position queue: eight slots `q_[8]`
(addressed through `& 7`) and the logical index `idx_`.  The C struct leaves
`q_` uninitialized; the model fills it with a default entry, which is never
observable through `StartPosQueueAt` below `StartPosQueueSize`. -/
structure StartPosQueue where
  q : ℕ → PosData
  idx : ℕ

/-- Embedding of `InitStartPosQueue`: only `idx_ = 0` is established. -/
def InitStartPosQueue : StartPosQueue := ⟨fun _ => default, 0⟩

/-- Embedding of `StartPosQueueSize`: `min(idx_, 8)`. -/
def StartPosQueueSize (s : StartPosQueue) : ℕ := min s.idx 8

/-- Slot write `q_[i] = v`. -/
def qWrite (q : ℕ → PosData) (i : ℕ) (v : PosData) : ℕ → PosData :=
  fun j => if j = i then v else q j

/-- `BROTLI_SWAP(PosData, q, i, j)`. -/
def qSwap (q : ℕ → PosData) (i j : ℕ) : ℕ → PosData :=
  fun t => if t = i then q j else if t = j then q i else q t

/-- The restore-sorted-order loop of `StartPosQueuePush`: `count` remaining
adjacent comparisons, the running `offset` masked `& 7` at each use. -/
def bubbleLoop : (ℕ → PosData) → ℕ → ℕ → (ℕ → PosData)
  | q, _, 0 => q
  | q, offset, count + 1 =>
    let q' := if (q ((offset + 1) % 8)).costdiff < (q (offset % 8)).costdiff then
        qSwap q (offset % 8) ((offset + 1) % 8)
      else q
    bubbleLoop q' (offset + 1) count

/-- Embedding of `StartPosQueuePush` (backward_references.c, lines 277–303):
write the new entry at slot `~(idx_++) & 7`, then run at most `size - 1`
adjacent compare/swap steps. -/
def StartPosQueuePush (s : StartPosQueue) (posdata : PosData) : StartPosQueue :=
  let offset := 7 - s.idx % 8
  let len := min (s.idx + 1) 8
  ⟨bubbleLoop (qWrite s.q offset posdata) offset (len - 1), s.idx + 1⟩

/-- Embedding of `StartPosQueueAt`: slot `(k - idx_) & 7`, the two's
complement subtraction rendered as `(k + 8 - idx_ % 8) % 8`. -/
def StartPosQueueAt (s : StartPosQueue) (k : ℕ) : PosData :=
  s.q ((k + 8 - s.idx % 8) % 8)

/-- The observable content of the queue: entries `at 0 .. at (size - 1)`. -/
def queueList (s : StartPosQueue) : List PosData :=
  (List.range (StartPosQueueSize s)).map (StartPosQueueAt s)

/-- Comparison by `costdiff`, the order the queue maintains. -/
def cdLE (a b : PosData) : Prop := a.costdiff ≤ b.costdiff

instance : DecidableRel cdLE := fun a b => inferInstanceAs (Decidable (a.costdiff ≤ b.costdiff))

instance : IsTotal PosData cdLE := ⟨fun a b => le_total a.costdiff b.costdiff⟩

instance : IsTrans PosData cdLE := ⟨fun _ _ _ h1 h2 => le_trans h1 h2⟩

/-- One push, as the claim describes the queue abstractly: insert the new
entry in costdiff order into the previously retained entries, the previous
content first truncated to its 7 smallest (so a full queue discards its
largest retained entry, whatever the incoming costdiff is). -/
def queueSpecStep (l : List PosData) (p : PosData) : List PosData :=
  List.orderedInsert cdLE p (l.take 7)

/-- The retained entries after a sequence of pushes, per `queueSpecStep`. -/
def queueSpecList (ps : List PosData) : List PosData := ps.foldl queueSpecStep []

/-- Push sequence used by the C2 counterexample: costdiffs 1..8 then 100. -/
def cePosData (c : ℚ) : PosData := ⟨0, ⟨0, 0, 0, 0⟩, c⟩

/-- Push list used by the C2 counterexample. -/
def cePushes : List PosData :=
  [cePosData 1, cePosData 2, cePosData 3, cePosData 4, cePosData 5,
    cePosData 6, cePosData 7, cePosData 8, cePosData 100]

/-- `BROTLI_UINT32_MAX`, the end-of-path sentinel of the back-trace. -/
def BROTLI_UINT32_MAX : ℕ := 4294967295

/-- The scan `while (nodes[index].u.cost == kInfinity) --index;` of
`ComputeShortestPathFromNodes`, returning the first index at or below the
start whose cost is finite.  Decrementing the unsigned index below 0 (all
costs infinite) in C reads out of bounds; that is `none` here. -/
def findLastReachable (nodes : ℕ → ZopfliNode) : ℕ → Option ℕ
  | 0 => if (nodes 0).u.costVal = ⊤ then none else some 0
  | i + 1 =>
    if (nodes (i + 1)).u.costVal = ⊤ then findLastReachable nodes i else some (i + 1)

/-- Store `nodes[i].u.next = v` (the union member switches to `next`). -/
def setNext (nodes : ℕ → ZopfliNode) (i v : ℕ) : ℕ → ZopfliNode :=
  fun j =>
    if j = i then
      ⟨(nodes i).length, (nodes i).distance, (nodes i).insert_length, ZNodeU.next v⟩
    else nodes j

/-- The backward walk of `ComputeShortestPathFromNodes`: subtract the
command length, record it as the predecessor's `next`, count the command.
`fuel` bounds the iterations (the walk strictly decreases `index`, so
`fuel = index` at entry always suffices under the node-array invariant);
a zero command length (C: no progress) or one exceeding `index` (C: the
`size_t` subtraction wraps and the following store is out of bounds) is
`none`. -/
def zopfliBackWalk : (ℕ → ZopfliNode) → ℕ → ℕ → ℕ → Option ((ℕ → ZopfliNode) × ℕ)
  | nodes, 0, index, num_commands =>
    if index = 0 then some (nodes, num_commands) else none
  | nodes, fuel + 1, index, num_commands =>
    if index = 0 then some (nodes, num_commands)
    else
      let len := ZopfliNodeCommandLength (nodes index)
      if len = 0 ∨ index < len then none
      else zopfliBackWalk (setNext nodes (index - len) len) fuel (index - len)
        (num_commands + 1)

/-- Embedding of `ComputeShortestPathFromNodes` (backward_references.c,
lines 512–525): locate the largest finite-cost index, write the sentinel
there, then walk backward recording command lengths; returns the updated
node array and the number of commands. -/
def ComputeShortestPathFromNodes (num_bytes : ℕ) (nodes : ℕ → ZopfliNode) :
    Option ((ℕ → ZopfliNode) × ℕ) :=
  match findLastReachable nodes num_bytes with
  | none => none
  | some e => zopfliBackWalk (setNext nodes e BROTLI_UINT32_MAX) e e 0

/-- Follow the `next` pointers from a position, as the claim reads the
back-trace result: collect positions until the sentinel (or a missing /
exhausted link). -/
def followNext (nodes : ℕ → ZopfliNode) : ℕ → ℕ → List ℕ
  | 0, pos => [pos]
  | fuel + 1, pos =>
    pos ::
      (match (nodes pos).u with
        | ZNodeU.next v =>
          if v = BROTLI_UINT32_MAX then [] else followNext nodes fuel (pos + v)
        | ZNodeU.cost _ => [])

/-- The "ZopfliNode array invariant" of the source comments, bounded to the
block: every finite-cost node at a positive position records a command of
length at least 2 that starts at a nonnegative position of finite cost
(`UpdateZopfliNode` REQUIRES `len >= 2`, `start_pos <= pos`, and
`nodes[start_pos].cost < kInfinity`). -/
def ZopfliNodeArrayInvariant (nodes : ℕ → ZopfliNode) (n : ℕ) : Prop :=
  ∀ p, p ≤ n → 0 < p → (nodes p).u.costVal ≠ ⊤ →
    2 ≤ ZopfliNodeCommandLength (nodes p) ∧ ZopfliNodeCommandLength (nodes p) ≤ p ∧
      (nodes (p - ZopfliNodeCommandLength (nodes p))).u.costVal ≠ ⊤

instance (nodes : ℕ → ZopfliNode) (n : ℕ) : Decidable (ZopfliNodeArrayInvariant nodes n) := by
  unfold ZopfliNodeArrayInvariant
  infer_instance

/-- Concrete node array used by the back-trace witnesses: a single command
of copy length 2 (`length` packs modifier 9, so `len_code = 2`), distance
1, insert length 1, reaching position 3. -/
def witNodes : ℕ → ZopfliNode := fun p =>
  if p = 0 then ⟨0, 0, 0, ZNodeU.cost 0⟩
  else if p = 3 then ⟨150994946, 1, 1, ZNodeU.cost 5⟩
  else zopfliStubNode

/-- The collection loop of `ComputeDistanceCache` (backward_references.c,
lines 343–371): walk the back-pointers from `p`, append each qualifying
distance (cast to `int`) while fewer than 4 were collected, step back by
`clen + ilen`.  `fuel` bounds the iterations (`fuel = p` suffices under the
node-array invariant); a non-advancing or overshooting step is `none`. -/
def cdcGo (nodes : ℕ → ZopfliNode) (block_start max_backward : ℕ) :
    ℕ → ℕ → List ℤ → Option (List ℤ)
  | 0, p, acc => if 4 ≤ acc.length ∨ p = 0 then some acc else none
  | fuel + 1, p, acc =>
    if 4 ≤ acc.length ∨ p = 0 then some acc
    else
      let clen := ZopfliNodeCopyLength (nodes p)
      let ilen := (nodes p).insert_length
      let dist := ZopfliNodeCopyDistance (nodes p)
      let acc' := if dist + clen ≤ block_start + p ∧ dist ≤ max_backward ∧
          0 < ZopfliNodeDistanceCode (nodes p) then acc ++ [(dist : ℤ)] else acc
      if clen + ilen = 0 ∨ p < clen + ilen then none
      else cdcGo nodes block_start max_backward fuel (p - (clen + ilen)) acc'

/-- Embedding of `ComputeDistanceCache`: collect up to the four most recent
qualifying distances along the chosen path to `pos`, then pad, in order,
from the block's starting cache. -/
def ComputeDistanceCache (block_start pos max_backward : ℕ)
    (starting_dist_cache : DistCache) (nodes : ℕ → ZopfliNode) : Option DistCache :=
  (cdcGo nodes block_start max_backward pos pos []).map
    (fun acc => DistCache.ofPadded acc starting_dist_cache)

/-- The claim's description of the reconstruction walk: the distances of
all qualifying nodes along the back-pointer chain from `p`, newest first
(condition (i): not a dictionary reference, (ii): within the backward
limit, (iii): distance code positive). -/
def backQualDistances (nodes : ℕ → ZopfliNode) (block_start max_backward : ℕ) :
    ℕ → ℕ → List ℤ
  | 0, _ => []
  | fuel + 1, p =>
    if p = 0 then []
    else
      (if ZopfliNodeCopyDistance (nodes p) + ZopfliNodeCopyLength (nodes p) ≤
            block_start + p ∧
          ZopfliNodeCopyDistance (nodes p) ≤ max_backward ∧
          0 < ZopfliNodeDistanceCode (nodes p)
        then [(ZopfliNodeCopyDistance (nodes p) : ℤ)] else []) ++
      backQualDistances nodes block_start max_backward fuel
        (p - (ZopfliNodeCopyLength (nodes p) + (nodes p).insert_length))

/-- The command-emission loop of `BrotliZopfliCreateCommands`
(backward_references.c, lines 527–571): follow the `next` links, build one
command per link through the external `InitCommand` constructor
(`enc/command.h`, not under `src/`, hence a parameter), shift the
persistent distance cache on non-dictionary commands with positive distance
code, track `last_insert_len` (folded into the first command) and
`num_literals`.  `fuel` bounds the iterations (`num_bytes + 1` suffices for
any chain produced by the back-trace); reading a `next` link that was never
written is `none`. -/
def emitGo (initCommand : ℕ → ℕ → ℕ → ℕ → Command)
    (num_bytes block_start max_backward_limit : ℕ) (nodes : ℕ → ZopfliNode) :
    ℕ → ℕ → ℕ → Bool → DistCache → ℕ → ℕ → List Command →
    Option (List Command × DistCache × ℕ × ℕ)
  | 0, pos, offset, _, dist_cache, last_insert_len, num_literals, cmds =>
    if offset = BROTLI_UINT32_MAX then
      some (cmds, dist_cache, last_insert_len + (num_bytes - pos), num_literals)
    else none
  | fuel + 1, pos, offset, first, dist_cache, last_insert_len, num_literals, cmds =>
    if offset = BROTLI_UINT32_MAX then
      some (cmds, dist_cache, last_insert_len + (num_bytes - pos), num_literals)
    else
      match (nodes (pos + offset)).u with
      | ZNodeU.cost _ => none
      | ZNodeU.next offset' =>
        let copy_length := ZopfliNodeCopyLength (nodes (pos + offset))
        let insert_length0 := (nodes (pos + offset)).insert_length
        let pos1 := pos + insert_length0
        let insert_length := if first then insert_length0 + last_insert_len
          else insert_length0
        let lil' := if first then 0 else last_insert_len
        let distance := ZopfliNodeCopyDistance (nodes (pos + offset))
        let len_code := ZopfliNodeLengthCode (nodes (pos + offset))
        let max_distance := min (block_start + pos1) max_backward_limit
        let dist_code := ZopfliNodeDistanceCode (nodes (pos + offset))
        let cmd := initCommand insert_length copy_length len_code dist_code
        let dist_cache' := if ¬ max_distance < distance ∧ 0 < dist_code then
            dist_cache.shift (distance : ℤ)
          else dist_cache
        emitGo initCommand num_bytes block_start max_backward_limit nodes fuel
          (pos1 + copy_length) offset' false dist_cache' lil'
          (num_literals + insert_length) (cmds ++ [cmd])

/-- Embedding of `BrotliZopfliCreateCommands`: read the first link from
`nodes[0]` and run the emission loop; returns the command list, the updated
distance cache, the residual `last_insert_len` and `num_literals`. -/
def BrotliZopfliCreateCommands (initCommand : ℕ → ℕ → ℕ → ℕ → Command)
    (num_bytes block_start max_backward_limit : ℕ) (nodes : ℕ → ZopfliNode)
    (dist_cache : DistCache) (last_insert_len num_literals : ℕ) :
    Option (List Command × DistCache × ℕ × ℕ) :=
  match (nodes 0).u with
  | ZNodeU.cost _ => none
  | ZNodeU.next offset =>
    emitGo initCommand num_bytes block_start max_backward_limit nodes
      (num_bytes + 1) 0 offset true dist_cache last_insert_len num_literals []

/-- The claim's per-command cache condition: the command arriving at chain
position `p` is non-dictionary (its distance is at most
`min(block_start + copy-start, max_backward_limit)`) and its distance code
is positive. -/
def emitterQualifies (nodes : ℕ → ZopfliNode) (block_start max_backward_limit : ℕ)
    (p : ℕ) : Prop :=
  ZopfliNodeCopyDistance (nodes p) ≤
    min (block_start + (p - ZopfliNodeCopyLength (nodes p))) max_backward_limit ∧
  0 < ZopfliNodeDistanceCode (nodes p)

instance (nodes : ℕ → ZopfliNode) (bs mb p : ℕ) :
    Decidable (emitterQualifies nodes bs mb p) := by
  unfold emitterQualifies
  infer_instance

/-- The claim's description of the emitter's frame effect on the distance
cache: fold over the emitted commands (the chain positions after 0),
shifting in the distance exactly on qualifying commands. -/
def cacheSpecFold (nodes : ℕ → ZopfliNode) (block_start max_backward_limit : ℕ)
    (cache : DistCache) (chain : List ℕ) : DistCache :=
  chain.foldl (fun c p =>
    if emitterQualifies nodes block_start max_backward_limit p then
      c.shift ((ZopfliNodeCopyDistance (nodes p) : ℤ))
    else c) cache

/-- The node array of `witNodes` after the back-trace: the sentinel at
position 3 and the link `next = 3` at position 0. -/
def witNodesF : ℕ → ZopfliNode := setNext (setNext witNodes 3 BROTLI_UINT32_MAX) 0 3

/-- The qualifying distance of a chain position, when the command arriving
there qualifies for a cache update. -/
def emitQualDist (nodes : ℕ → ZopfliNode) (block_start max_backward_limit : ℕ)
    (p : ℕ) : Option ℤ :=
  if emitterQualifies nodes block_start max_backward_limit p then
    some ((ZopfliNodeCopyDistance (nodes p) : ℤ))
  else none

/-- The pass-closing and emission phase of the quality > 9 path of
`BrotliCreateBackwardReferences` (backward_references.c, lines 706–884):
close the pass with `ComputeShortestPathFromNodes` and emit the command
list with `BrotliZopfliCreateCommands`.  The process-global flag
`brotlirep` is threaded explicitly to make the state the phase could read
visible; none of the functions of this phase consult it. -/
def ZopfliEmitPhase (brotlirep : Bool) (initCommand : ℕ → ℕ → ℕ → ℕ → Command)
    (num_bytes block_start max_backward_limit : ℕ) (nodes : ℕ → ZopfliNode)
    (dist_cache : DistCache) (last_insert_len num_literals : ℕ) :
    Option (ℕ × (List Command × DistCache × ℕ × ℕ)) :=
  match ComputeShortestPathFromNodes num_bytes nodes with
  | none => none
  | some (F, m) =>
    (BrotliZopfliCreateCommands initCommand num_bytes block_start max_backward_limit
      F dist_cache last_insert_len num_literals).map (fun r => (m, r))

lemma findShortCodeFrom_spec (d : ℕ) (c : DistCache) :
    ∀ fuel k, k + fuel = 16 → 4 ≤ k →
    (∃ j, k ≤ j ∧ j < 16 ∧
      d = sizeT (c.get (kDistanceCacheIndex j) + kDistanceCacheOffset j) ∧ kLimits j ≤ d) →
    findShortCodeFrom d c fuel k < 16 ∧ 4 ≤ findShortCodeFrom d c fuel k ∧
      d = sizeT (c.get (kDistanceCacheIndex (findShortCodeFrom d c fuel k)) +
          kDistanceCacheOffset (findShortCodeFrom d c fuel k)) ∧
      kLimits (findShortCodeFrom d c fuel k) ≤ d := by
  intro fuel
  induction fuel with
  | zero =>
    intro k hk _ hex
    obtain ⟨j, hj1, hj2, _⟩ := hex
    omega
  | succ n ih =>
    intro k hk hk4 hex
    by_cases hcond : d = sizeT (c.get (kDistanceCacheIndex k) + kDistanceCacheOffset k)
        ∧ kLimits k ≤ d
    · simp only [findShortCodeFrom, if_pos hcond]
      exact ⟨by omega, hk4, hcond.1, hcond.2⟩
    · simp only [findShortCodeFrom, if_neg hcond]
      apply ih (k + 1) (by omega) (by omega)
      obtain ⟨j, hj1, hj2, hj3, hj4⟩ := hex
      refine ⟨j, ?_, hj2, hj3, hj4⟩
      rcases Nat.eq_or_lt_of_le hj1 with h | h
      · exact absurd ⟨h ▸ hj3, h ▸ hj4⟩ hcond
      · omega

/-- Claim C1, counterexample: short-code distance encoding is NOT attempted
unconditionally.  At distance 1 with `dist_cache = {1,11,15,16}` (so the
distance equals `dist_cache[0]` and the claim demands short code 0 < 16),
`ComputeDistanceCode` with the global flag `brotlirep` clear returns
`distance + 15 = 16`, not a short code. -/
theorem ComputeDistanceCode_unconditional_counterexample :
    ShortCodeMatch 1 11 ⟨1, 11, 15, 16⟩ 0 ∧ (1 : ℕ) ≤ 4 ∧
      ComputeDistanceCode false 1 4 11 ⟨1, 11, 15, 16⟩ = 1 + 15 ∧
      ¬ ComputeDistanceCode false 1 4 11 ⟨1, 11, 15, 16⟩ < 16 := by
  refine ⟨?_, ?_, ?_, ?_⟩ <;> decide

/-- Claim C1, amended: when the global flag `brotlirep` is set, short-code
distance encoding is attempted as the claim states: for every distance
`d ≤ max_distance` admitting a short code `k` (a cache hit for codes 0..3,
or, for `quality > 3` and `d ≥ 6`, a perturbed cache hit respecting the
lower-bound table for codes 4..15), `ComputeDistanceCode` returns an
admissible short code `< 16` rather than `d + 15`. -/
theorem ComputeDistanceCode_short_code_with_rep_flag (d md : ℕ) (q : ℤ) (c : DistCache)
    (hd : d ≤ md) (h : ∃ k, ShortCodeMatch d q c k) :
    ComputeDistanceCode true d md q c < 16 ∧
      ShortCodeMatch d q c (ComputeDistanceCode true d md q c) := by
  unfold ComputeDistanceCode
  rw [if_pos ⟨rfl, hd⟩]
  split_ifs with h0 h1 h2 h3 h4
  · exact ⟨by omega, Or.inl ⟨by omega, h0⟩⟩
  · exact ⟨by omega, Or.inl ⟨by omega, h1⟩⟩
  · exact ⟨by omega, Or.inl ⟨by omega, h2⟩⟩
  · exact ⟨by omega, Or.inl ⟨by omega, h3⟩⟩
  · have hex : ∃ j, 4 ≤ j ∧ j < 16 ∧
        d = sizeT (c.get (kDistanceCacheIndex j) + kDistanceCacheOffset j) ∧ kLimits j ≤ d := by
      obtain ⟨k, hk⟩ := h
      rcases hk with ⟨hklt, hkeq⟩ | ⟨hk4, hk16, _, _, hkeq, hklim⟩
      · interval_cases k
        · exact absurd hkeq h0
        · exact absurd hkeq h1
        · exact absurd hkeq h2
        · exact absurd hkeq h3
      · exact ⟨k, hk4, hk16, hkeq, hklim⟩
    have hspec := findShortCodeFrom_spec d c 12 4 (by omega) (by omega) hex
    exact ⟨hspec.1, Or.inr ⟨hspec.2.1, hspec.1, h4.1, h4.2, hspec.2.2⟩⟩
  · obtain ⟨k, hk⟩ := h
    rcases hk with ⟨hklt, hkeq⟩ | ⟨_, _, hq, hd6, _, _⟩
    · interval_cases k
      · exact absurd hkeq h0
      · exact absurd hkeq h1
      · exact absurd hkeq h2
      · exact absurd hkeq h3
    · exact absurd ⟨hq, hd6⟩ h4

/-- Witness for `ComputeDistanceCode_short_code_with_rep_flag` at distance 6
with cache `{5,0,0,0}` (short code 5 = `cache[0] + 1`). -/
theorem ComputeDistanceCode_short_code_with_rep_flag_witness :
    (6 : ℕ) ≤ 10 ∧ ShortCodeMatch 6 11 ⟨5, 0, 0, 0⟩ 5 ∧
      (ComputeDistanceCode true 6 10 11 ⟨5, 0, 0, 0⟩ < 16 ∧
        ShortCodeMatch 6 11 ⟨5, 0, 0, 0⟩ (ComputeDistanceCode true 6 10 11 ⟨5, 0, 0, 0⟩)) :=
  ⟨by decide, by decide,
    ComputeDistanceCode_short_code_with_rep_flag 6 10 11 ⟨5, 0, 0, 0⟩ (by decide) ⟨5, by decide⟩⟩

/-- Claim C3, counterexample: the command distance codes computed by the
backward-reference pass are NOT a function of the documented input tuple
alone.  With identical arguments `(distance, max_distance, quality,
dist_cache)`, `ComputeDistanceCode` returns 0 when the process-global flag
`brotlirep` is set and 17 when it is clear, so state outside the input tuple
(a global variable) influences the output. -/
theorem ComputeDistanceCode_reads_global_state :
    ComputeDistanceCode true 2 5 11 ⟨2, 3, 4, 5⟩ = 0 ∧
      ComputeDistanceCode false 2 5 11 ⟨2, 3, 4, 5⟩ = 17 ∧
      ComputeDistanceCode true 2 5 11 ⟨2, 3, 4, 5⟩ ≠
        ComputeDistanceCode false 2 5 11 ⟨2, 3, 4, 5⟩ := by
  refine ⟨?_, ?_, ?_⟩ <;> decide

lemma histFold_cmd (rb : ℕ → ℕ) (mask : ℕ) :
    ∀ (cmds : List Command) (st : HistState) (c : ℕ),
      (cmds.foldl (histStep rb mask) st).cmd c =
        st.cmd c + cmds.countP (fun cm => cm.cmd_prefix_ == c) := by
  intro cmds
  induction cmds with
  | nil => intro st c; simp
  | cons hd tl ih =>
    intro st c
    rw [List.foldl_cons, ih, List.countP_cons]
    simp only [histStep, bumpHist]
    by_cases h : c = hd.cmd_prefix_
    · simp [h]
      omega
    · have : (hd.cmd_prefix_ == c) = false := by
        simp [Ne.symm h]
      simp [if_neg h, this]

lemma histFold_dist (rb : ℕ → ℕ) (mask : ℕ) :
    ∀ (cmds : List Command) (st : HistState) (d : ℕ),
      (cmds.foldl (histStep rb mask) st).dist d =
        st.dist d + cmds.countP (fun cm => decide (128 ≤ cm.cmd_prefix_) && (cm.dist_prefix_ == d)) := by
  intro cmds
  induction cmds with
  | nil => intro st d; simp
  | cons hd tl ih =>
    intro st d
    rw [List.foldl_cons, ih, List.countP_cons]
    simp only [histStep, bumpHist]
    by_cases hc : 128 ≤ hd.cmd_prefix_
    · by_cases h : d = hd.dist_prefix_
      · simp [hc, h, bumpHist]
        omega
      · have : (hd.dist_prefix_ == d) = false := by simp [Ne.symm h]
        simp [hc, if_neg h, this, bumpHist]
    · have : (decide (128 ≤ hd.cmd_prefix_) && (hd.dist_prefix_ == d)) = false := by
        simp [hc]
      simp [hc, this]

lemma SetCost_getD (flog2 : ℕ → ℚ) (hist : List ℕ) (i : ℕ) (hi : i < hist.length) :
    (SetCost flog2 hist).getD i 0 =
      (if hist.getD i 0 = 0 then flog2 hist.sum + 2
       else max 1 (flog2 hist.sum - flog2 (hist.getD i 0))) := by
  unfold SetCost
  rw [List.getD_eq_getElem?_getD, List.getD_eq_getElem?_getD, List.getElem?_map,
    List.getElem?_eq_getElem hi]
  simp only [Option.map_some', Option.getD_some]
  by_cases h0 : hist[i] = 0
  · simp [h0]
  · rw [if_neg h0, if_neg h0]
    rcases lt_or_le (flog2 hist.sum - flog2 hist[i]) 1 with h1 | h1
    · rw [if_pos h1, max_eq_left h1.le]
    · rw [if_neg (not_lt.mpr h1), max_eq_right h1]

/-- Claim C7: the refit cost model assigns, for every histogram `H` passed to
`SetCost` and every index `i < |H|`, the bit-cost
`max(1, log2(Σ H) - log2 H[i])` to nonzero entries and `log2(Σ H) + 2` to
zero entries (for the external base-2 logarithm `flog2` of `fast_log.h`);
and `ZopfliCostModelSetFromCommands` counts every command's `cmd_prefix_` in
the command histogram, and a command's `dist_prefix_` in the distance
histogram exactly when its `cmd_prefix_ ≥ 128`. -/
theorem SetCost_formula_and_histogram_gating (flog2 : ℕ → ℚ) (hist : List ℕ)
    (i : ℕ) (hi : i < hist.length) (position : ℕ) (rb : ℕ → ℕ) (mask : ℕ)
    (cmds : List Command) (lil cs ds : ℕ) :
    (SetCost flog2 hist).getD i 0 =
      (if hist.getD i 0 = 0 then flog2 hist.sum + 2
       else max 1 (flog2 hist.sum - flog2 (hist.getD i 0))) ∧
    (ZopfliCostModelHistograms position rb mask cmds lil).cmd cs =
      cmds.countP (fun cm => cm.cmd_prefix_ == cs) ∧
    (ZopfliCostModelHistograms position rb mask cmds lil).dist ds =
      cmds.countP (fun cm => decide (128 ≤ cm.cmd_prefix_) && (cm.dist_prefix_ == ds)) := by
  refine ⟨SetCost_getD flog2 hist i hi, ?_, ?_⟩
  · rw [ZopfliCostModelHistograms, histFold_cmd]
    simp
  · rw [ZopfliCostModelHistograms, histFold_dist]
    simp

/-- Witness for `SetCost_formula_and_histogram_gating` on the histogram
`[0, 3]` at index 1, with two concrete commands of which only the first
(`cmd_prefix_ = 130 ≥ 128`) contributes to the distance histogram. -/
theorem SetCost_formula_and_histogram_gating_witness :
    (1 : ℕ) < ([0, 3] : List ℕ).length ∧
      ((SetCost (fun n => (n : ℚ)) [0, 3]).getD 1 0 =
        (if ([0, 3] : List ℕ).getD 1 0 = 0 then ((([0, 3] : List ℕ).sum : ℚ)) + 2
         else max 1 ((([0, 3] : List ℕ).sum : ℚ) - (([0, 3] : List ℕ).getD 1 0 : ℚ))) ∧
      (ZopfliCostModelHistograms 5 (fun _ => 0) 7 [⟨2, 3, 130, 7⟩, ⟨1, 2, 5, 7⟩] 1).cmd 130 =
        ([⟨2, 3, 130, 7⟩, ⟨1, 2, 5, 7⟩] : List Command).countP (fun cm => cm.cmd_prefix_ == 130) ∧
      (ZopfliCostModelHistograms 5 (fun _ => 0) 7 [⟨2, 3, 130, 7⟩, ⟨1, 2, 5, 7⟩] 1).dist 7 =
        ([⟨2, 3, 130, 7⟩, ⟨1, 2, 5, 7⟩] : List Command).countP
          (fun cm => decide (128 ≤ cm.cmd_prefix_) && (cm.dist_prefix_ == 7))) :=
  ⟨by decide,
    SetCost_formula_and_histogram_gating (fun n => (n : ℚ)) [0, 3] 1 (by decide)
      5 (fun _ => 0) 7 [⟨2, 3, 130, 7⟩, ⟨1, 2, 5, 7⟩] 1 130 7⟩

lemma lor_shiftLeft_eq_add {a m w : ℕ} (ha : a < 2 ^ w) :
    a ||| (m <<< w) = 2 ^ w * m + a := by
  rw [Nat.shiftLeft_eq, Nat.mul_comm m (2 ^ w), Nat.lor_comm,
    ← Nat.mul_add_lt_is_or ha]

lemma packed_and_mask {a m w : ℕ} (ha : a < 2 ^ w) :
    (2 ^ w * m + a) &&& (2 ^ w - 1) = a := by
  rw [Nat.and_pow_two_sub_one_eq_mod, Nat.mul_add_mod, Nat.mod_eq_of_lt ha]

lemma packed_shiftRight {a m w : ℕ} (ha : a < 2 ^ w) :
    (2 ^ w * m + a) >>> w = m := by
  rw [Nat.shiftRight_eq_div_pow, Nat.mul_add_div (Nat.two_pow_pos w),
    Nat.div_eq_of_lt ha, Nat.add_zero]

/-- Claim C4: node bit-packing round-trips.  For `2 ≤ len < 2^24`,
`0 ≤ len + 9 - len_code < 256`, `dist < 2^25`, `short_code ∈ 0..16`,
`start_pos ≤ pos` with `pos - start_pos` a representable `uint32`, the
accessors recover exactly the logical fields written by `UpdateZopfliNode`:
copy length `len`, length code `len_code`, copy distance `dist`, distance
code `short_code - 1` if `short_code > 0` else `dist + 15`, and insert
length `pos - start_pos`. -/
theorem UpdateZopfliNode_roundtrip (nodes : ℕ → ZopfliNode)
    (pos start_pos len len_code dist short_code : ℕ) (cost : WithTop ℚ)
    (hlen2 : 2 ≤ len) (hlen : len < 2 ^ 24)
    (hlc : len_code ≤ len + 9) (hmod : len + 9 - len_code < 2 ^ 8)
    (hdist : dist < 2 ^ 25) (hsc : short_code ≤ 16)
    (hstart : start_pos ≤ pos) (hins : pos - start_pos < 2 ^ 32) :
    ZopfliNodeCopyLength
        (UpdateZopfliNode nodes pos start_pos len len_code dist short_code cost (pos + len)) = len ∧
    ZopfliNodeLengthCode
        (UpdateZopfliNode nodes pos start_pos len len_code dist short_code cost (pos + len)) = len_code ∧
    ZopfliNodeCopyDistance
        (UpdateZopfliNode nodes pos start_pos len len_code dist short_code cost (pos + len)) = dist ∧
    ZopfliNodeDistanceCode
        (UpdateZopfliNode nodes pos start_pos len len_code dist short_code cost (pos + len)) =
      (if 0 < short_code then short_code - 1 else dist + 15) ∧
    (UpdateZopfliNode nodes pos start_pos len len_code dist short_code cost (pos + len)).insert_length =
      pos - start_pos ∧
    (UpdateZopfliNode nodes pos start_pos len len_code dist short_code cost (pos + len)).u =
      ZNodeU.cost cost := by
  have hlenpack : (len ||| ((len + 9 - len_code) <<< 24)) % 2 ^ 32 =
      2 ^ 24 * (len + 9 - len_code) + len := by
    rw [lor_shiftLeft_eq_add hlen, Nat.mod_eq_of_lt (by omega)]
  have hdistpack : (dist ||| (short_code <<< 25)) % 2 ^ 32 =
      2 ^ 25 * short_code + dist := by
    rw [lor_shiftLeft_eq_add hdist, Nat.mod_eq_of_lt (by omega)]
  have hnode : UpdateZopfliNode nodes pos start_pos len len_code dist short_code cost (pos + len) =
      ⟨2 ^ 24 * (len + 9 - len_code) + len, 2 ^ 25 * short_code + dist,
        pos - start_pos, ZNodeU.cost cost⟩ := by
    have hw : UpdateZopfliNode nodes pos start_pos len len_code dist short_code cost (pos + len) =
        ⟨(len ||| ((len + 9 - len_code) <<< 24)) % 2 ^ 32,
         (dist ||| (short_code <<< 25)) % 2 ^ 32,
         (pos - start_pos) % 2 ^ 32, ZNodeU.cost cost⟩ := by
      unfold UpdateZopfliNode
      exact if_pos rfl
    rw [hw, hlenpack, hdistpack, Nat.mod_eq_of_lt hins]
  rw [hnode]
  have e1 : (2 ^ 24 * (len + 9 - len_code) + len) &&& 0xffffff = len := by
    rw [show (0xffffff : ℕ) = 2 ^ 24 - 1 by norm_num]
    exact packed_and_mask hlen
  have e2 : (2 ^ 24 * (len + 9 - len_code) + len) >>> 24 = len + 9 - len_code :=
    packed_shiftRight hlen
  have e3 : (2 ^ 25 * short_code + dist) &&& 0x1ffffff = dist := by
    rw [show (0x1ffffff : ℕ) = 2 ^ 25 - 1 by norm_num]
    exact packed_and_mask hdist
  have e4 : (2 ^ 25 * short_code + dist) >>> 25 = short_code := packed_shiftRight hdist
  refine ⟨e1, ?_, e3, ?_, rfl, rfl⟩
  · simp only [ZopfliNodeLengthCode, ZopfliNodeCopyLength, e1, e2]
    omega
  · simp only [ZopfliNodeDistanceCode, ZopfliNodeCopyDistance, e3, e4]
    by_cases h0 : short_code = 0
    · simp [h0]
    · rw [if_neg h0, if_pos (by omega)]

/-- Witness for `UpdateZopfliNode_roundtrip` at `pos = 5`, `start_pos = 3`,
`len = 7`, `len_code = 7`, `dist = 40`, `short_code = 2`. -/
theorem UpdateZopfliNode_roundtrip_witness :
    (2 ≤ 7 ∧ 7 < 2 ^ 24 ∧ 7 ≤ 7 + 9 ∧ 7 + 9 - 7 < 2 ^ 8 ∧ 40 < 2 ^ 25 ∧
      2 ≤ 16 ∧ 3 ≤ 5 ∧ 5 - 3 < 2 ^ 32) ∧
    (ZopfliNodeCopyLength
        (UpdateZopfliNode BrotliInitZopfliNodes 5 3 7 7 40 2 (ZNodeU.cost 0).costVal (5 + 7)) = 7 ∧
      ZopfliNodeLengthCode
        (UpdateZopfliNode BrotliInitZopfliNodes 5 3 7 7 40 2 (ZNodeU.cost 0).costVal (5 + 7)) = 7 ∧
      ZopfliNodeCopyDistance
        (UpdateZopfliNode BrotliInitZopfliNodes 5 3 7 7 40 2 (ZNodeU.cost 0).costVal (5 + 7)) = 40 ∧
      ZopfliNodeDistanceCode
        (UpdateZopfliNode BrotliInitZopfliNodes 5 3 7 7 40 2 (ZNodeU.cost 0).costVal (5 + 7)) =
        (if 0 < 2 then 2 - 1 else 40 + 15) ∧
      (UpdateZopfliNode BrotliInitZopfliNodes 5 3 7 7 40 2 (ZNodeU.cost 0).costVal (5 + 7)).insert_length =
        5 - 3 ∧
      (UpdateZopfliNode BrotliInitZopfliNodes 5 3 7 7 40 2 (ZNodeU.cost 0).costVal (5 + 7)).u =
        ZNodeU.cost (ZNodeU.cost 0).costVal) :=
  ⟨⟨by decide, by norm_num, by decide, by norm_num, by norm_num, by decide, by decide, by norm_num⟩,
    UpdateZopfliNode_roundtrip BrotliInitZopfliNodes 5 3 7 7 40 2 (ZNodeU.cost 0).costVal
      (by decide) (by norm_num) (by decide) (by norm_num) (by norm_num) (by decide)
      (by decide) (by norm_num)⟩

lemma range_map_succ_view {α : Type} (k : ℕ) (g : ℕ → α) :
    (List.range (k + 1)).map g =
      g 0 :: (List.range k).map (fun j => g (j + 1)) := by
  rw [List.range_succ_eq_map, List.map_cons, List.map_map]
  rfl

lemma orderedInsert_head (b : PosData) (T : List PosData)
    (h : List.Sorted cdLE (b :: T)) : List.orderedInsert cdLE b T = b :: T := by
  cases T with
  | nil => rfl
  | cons t T' =>
    rw [List.orderedInsert, if_pos (List.rel_of_sorted_cons h t (by simp))]

lemma bubbleLoop_spec : ∀ (n : ℕ), n ≤ 7 → ∀ (q : ℕ → PosData) (s : ℕ),
    List.Sorted cdLE ((List.range n).map (fun i => q ((s + 1 + i) % 8))) →
    ((List.range (n + 1)).map (fun i => bubbleLoop q s n ((s + i) % 8)) =
      List.orderedInsert cdLE (q (s % 8)) ((List.range n).map (fun i => q ((s + 1 + i) % 8)))) ∧
    (∀ j, (∀ i, i ≤ n → j ≠ (s + i) % 8) → bubbleLoop q s n j = q j) := by
  intro n
  induction n with
  | zero =>
    intro _ q s _
    constructor
    · rw [range_map_succ_view]
      simp [bubbleLoop, List.orderedInsert]
    · intro j _
      rfl
  | succ n ih =>
    intro hn q s hsorted
    have hn7 : n ≤ 7 := by omega
    have hsplit : (List.range (n + 1)).map (fun i => q ((s + 1 + i) % 8)) =
        q ((s + 1) % 8) :: (List.range n).map (fun i => q ((s + 2 + i) % 8)) := by
      rw [range_map_succ_view]
      have h0 : s + 1 + 0 = s + 1 := by omega
      rw [h0]
      congr 1
      apply List.map_congr_left
      intro i _
      have h2 : s + 1 + (i + 1) = s + 2 + i := by omega
      rw [h2]
    have hsortedT : List.Sorted cdLE
        (q ((s + 1) % 8) :: (List.range n).map (fun i => q ((s + 2 + i) % 8))) := by
      rw [← hsplit]
      exact hsorted
    have hTsorted : List.Sorted cdLE ((List.range n).map (fun i => q ((s + 2 + i) % 8))) :=
      hsortedT.of_cons
    have hstep : bubbleLoop q s (n + 1) =
        bubbleLoop (if (q ((s + 1) % 8)).costdiff < (q (s % 8)).costdiff then
          qSwap q (s % 8) ((s + 1) % 8) else q) (s + 1) n := rfl
    have hne01 : (s + 1) % 8 ≠ s % 8 := by omega
    by_cases hswap : (q ((s + 1) % 8)).costdiff < (q (s % 8)).costdiff
    · -- swap case: the freshly inserted entry bubbles one slot up
      have hstepS : bubbleLoop q s (n + 1) =
          bubbleLoop (qSwap q (s % 8) ((s + 1) % 8)) (s + 1) n := by
        rw [hstep, if_pos hswap]
      have hQ0 : qSwap q (s % 8) ((s + 1) % 8) (s % 8) = q ((s + 1) % 8) := by
        simp [qSwap]
      have hQ1 : qSwap q (s % 8) ((s + 1) % 8) ((s + 1) % 8) = q (s % 8) := by
        simp [qSwap, hne01]
      have hQtail : ∀ i, i < n → qSwap q (s % 8) ((s + 1) % 8) ((s + 2 + i) % 8) =
          q ((s + 2 + i) % 8) := by
        intro i hi
        have g1 : (s + 2 + i) % 8 ≠ s % 8 := by omega
        have g2 : (s + 2 + i) % 8 ≠ (s + 1) % 8 := by omega
        simp [qSwap, g1, g2]
      have hrecTail : (List.range n).map
            (fun i => qSwap q (s % 8) ((s + 1) % 8) ((s + 1 + 1 + i) % 8)) =
          (List.range n).map (fun i => q ((s + 2 + i) % 8)) := by
        apply List.map_congr_left
        intro i hi
        have h2 : s + 1 + 1 + i = s + 2 + i := by omega
        rw [h2, hQtail i (List.mem_range.mp hi)]
      have ihm := ih hn7 (qSwap q (s % 8) ((s + 1) % 8)) (s + 1) (by
        rw [hrecTail]
        exact hTsorted)
      constructor
      · -- the view equation
        rw [range_map_succ_view, hstepS]
        have hhead : bubbleLoop (qSwap q (s % 8) ((s + 1) % 8)) (s + 1) n ((s + 0) % 8) =
            q ((s + 1) % 8) := by
          have hfr := ihm.2 ((s + 0) % 8) (by
            intro i hi
            omega)
          rw [hfr]
          have h0 : s + 0 = s := by omega
          rw [h0, hQ0]
        have htail : (List.range (n + 1)).map
              (fun i => bubbleLoop (qSwap q (s % 8) ((s + 1) % 8)) (s + 1) n ((s + (i + 1)) % 8)) =
            List.orderedInsert cdLE (q (s % 8))
              ((List.range n).map (fun i => q ((s + 2 + i) % 8))) := by
          have hviews : (List.range (n + 1)).map
                (fun i => bubbleLoop (qSwap q (s % 8) ((s + 1) % 8)) (s + 1) n ((s + (i + 1)) % 8)) =
              (List.range (n + 1)).map
                (fun i => bubbleLoop (qSwap q (s % 8) ((s + 1) % 8)) (s + 1) n ((s + 1 + i) % 8)) := by
            apply List.map_congr_left
            intro i _
            have h2 : s + (i + 1) = s + 1 + i := by omega
            rw [h2]
          rw [hviews, ihm.1, hQ1, hrecTail]
        rw [hhead, htail, hsplit]
        rw [List.orderedInsert, if_neg (by
          show ¬ cdLE (q (s % 8)) (q ((s + 1) % 8))
          exact not_le.mpr hswap)]
      · intro j hj
        rw [hstepS]
        have hfr := ihm.2 j (by
          intro i hi
          have := hj (i + 1) (by omega)
          have h2 : s + 1 + i = s + (i + 1) := by omega
          rw [h2]
          exact this)
        rw [hfr]
        have g1 : j ≠ s % 8 := by
          have := hj 0 (by omega)
          have h0 : (s + 0) % 8 = s % 8 := by omega
          rw [h0] at this
          exact this
        have g2 : j ≠ (s + 1) % 8 := hj 1 (by omega)
        simp [qSwap, g1, g2]
    · -- no-swap case: the inserted entry is already in place
      have hstepN : bubbleLoop q s (n + 1) = bubbleLoop q (s + 1) n := by
        rw [hstep, if_neg hswap]
      have hrecTail : (List.range n).map (fun i => q ((s + 1 + 1 + i) % 8)) =
          (List.range n).map (fun i => q ((s + 2 + i) % 8)) := by
        apply List.map_congr_left
        intro i _
        have h2 : s + 1 + 1 + i = s + 2 + i := by omega
        rw [h2]
      have ihm := ih hn7 q (s + 1) (by
        rw [hrecTail]
        exact hTsorted)
      constructor
      · rw [range_map_succ_view, hstepN]
        have hhead : bubbleLoop q (s + 1) n ((s + 0) % 8) = q (s % 8) := by
          have hfr := ihm.2 ((s + 0) % 8) (by
            intro i hi
            omega)
          rw [hfr]
          have h0 : s + 0 = s := by omega
          rw [h0]
        have htail : (List.range (n + 1)).map
              (fun i => bubbleLoop q (s + 1) n ((s + (i + 1)) % 8)) =
            q ((s + 1) % 8) :: (List.range n).map (fun i => q ((s + 2 + i) % 8)) := by
          have hviews : (List.range (n + 1)).map
                (fun i => bubbleLoop q (s + 1) n ((s + (i + 1)) % 8)) =
              (List.range (n + 1)).map
                (fun i => bubbleLoop q (s + 1) n ((s + 1 + i) % 8)) := by
            apply List.map_congr_left
            intro i _
            have h2 : s + (i + 1) = s + 1 + i := by omega
            rw [h2]
          rw [hviews, ihm.1, hrecTail]
          exact orderedInsert_head _ _ hsortedT
        rw [hhead, htail, hsplit]
        rw [List.orderedInsert, if_pos (by
          show cdLE (q (s % 8)) (q ((s + 1) % 8))
          exact not_lt.mp hswap)]
      · intro j hj
        rw [hstepN]
        apply ihm.2 j
        intro i hi
        have := hj (i + 1) (by omega)
        have h2 : s + 1 + i = s + (i + 1) := by omega
        rw [h2]
        exact this

lemma StartPosQueuePush_idx (s : StartPosQueue) (p : PosData) :
    (StartPosQueuePush s p).idx = s.idx + 1 := rfl

lemma queueList_push (s : StartPosQueue) (p : PosData)
    (h : List.Sorted cdLE (queueList s)) :
    queueList (StartPosQueuePush s p) = List.orderedInsert cdLE p ((queueList s).take 7) := by
  have hqfield : (StartPosQueuePush s p).q =
      bubbleLoop (qWrite s.q (7 - s.idx % 8) p) (7 - s.idx % 8) (min (s.idx + 1) 8 - 1) := rfl
  have hsize : StartPosQueueSize (StartPosQueuePush s p) = min s.idx 7 + 1 := by
    simp only [StartPosQueueSize, StartPosQueuePush_idx]
    omega
  have hcount : min (s.idx + 1) 8 - 1 = min s.idx 7 := by omega
  have hql : queueList (StartPosQueuePush s p) =
      (List.range (min s.idx 7 + 1)).map (fun k =>
        bubbleLoop (qWrite s.q (7 - s.idx % 8) p) (7 - s.idx % 8) (min s.idx 7)
          ((7 - s.idx % 8 + k) % 8)) := by
    rw [queueList, hsize]
    apply List.map_congr_left
    intro k _
    show (StartPosQueuePush s p).q ((k + 8 - (StartPosQueuePush s p).idx % 8) % 8) = _
    rw [hqfield, StartPosQueuePush_idx, hcount]
    have hslot : (k + 8 - (s.idx + 1) % 8) % 8 = (7 - s.idx % 8 + k) % 8 := by omega
    rw [hslot]
  have htailview : (List.range (min s.idx 7)).map
        (fun i => qWrite s.q (7 - s.idx % 8) p ((7 - s.idx % 8 + 1 + i) % 8)) =
      (queueList s).take 7 := by
    have h2 : (queueList s).take 7 = (List.range (min s.idx 7)).map (StartPosQueueAt s) := by
      rw [queueList, ← List.map_take, List.take_range]
      have : min 7 (StartPosQueueSize s) = min s.idx 7 := by
        simp only [StartPosQueueSize]
        omega
      rw [this]
    rw [h2]
    apply List.map_congr_left
    intro i hi
    have hic : i < min s.idx 7 := List.mem_range.mp hi
    have hne : (7 - s.idx % 8 + 1 + i) % 8 ≠ 7 - s.idx % 8 := by omega
    have heq : (7 - s.idx % 8 + 1 + i) % 8 = (i + 8 - s.idx % 8) % 8 := by omega
    show qWrite s.q (7 - s.idx % 8) p ((7 - s.idx % 8 + 1 + i) % 8) = _
    rw [qWrite, if_neg hne, heq]
    rfl
  have hsortedtail : List.Sorted cdLE ((List.range (min s.idx 7)).map
      (fun i => qWrite s.q (7 - s.idx % 8) p ((7 - s.idx % 8 + 1 + i) % 8))) := by
    rw [htailview]
    exact h.sublist (List.take_sublist 7 (queueList s))
  have hhead : qWrite s.q (7 - s.idx % 8) p ((7 - s.idx % 8) % 8) = p := by
    have hlt : (7 - s.idx % 8) % 8 = 7 - s.idx % 8 := Nat.mod_eq_of_lt (by omega)
    rw [qWrite, hlt, if_pos rfl]
  obtain ⟨hmain, _⟩ := bubbleLoop_spec (min s.idx 7) (by omega)
    (qWrite s.q (7 - s.idx % 8) p) (7 - s.idx % 8) hsortedtail
  rw [hql, hmain, hhead, htailview]

lemma queue_fold_inv (ps : List PosData) :
    ∀ (s : StartPosQueue) (l : List PosData),
      queueList s = l → List.Sorted cdLE l →
      queueList (ps.foldl StartPosQueuePush s) = ps.foldl queueSpecStep l ∧
        List.Sorted cdLE (ps.foldl queueSpecStep l) ∧
        (ps.foldl StartPosQueuePush s).idx = s.idx + ps.length := by
  induction ps with
  | nil =>
    intro s l heq hsort
    exact ⟨heq, hsort, by simp⟩
  | cons hd tl ih =>
    intro s l heq hsort
    rw [List.foldl_cons, List.foldl_cons]
    have hsq : List.Sorted cdLE (queueList s) := by
      rw [heq]
      exact hsort
    have hpush : queueList (StartPosQueuePush s hd) = queueSpecStep l hd := by
      rw [queueList_push s hd hsq, queueSpecStep, heq]
    have hsort' : List.Sorted cdLE (queueSpecStep l hd) :=
      List.Sorted.orderedInsert hd (l.take 7) (hsort.sublist (List.take_sublist 7 l))
    obtain ⟨h1, h2, h3⟩ := ih (StartPosQueuePush s hd) (queueSpecStep l hd) hpush hsort'
    refine ⟨h1, h2, ?_⟩
    rw [h3, StartPosQueuePush_idx]
    simp
    omega

/-- Claim C2, amended: for every push sequence from `InitStartPosQueue`,
(a) `StartPosQueueSize` is `min(pushes, 8)`; (b) the retained entries
`StartPosQueueAt 0 .. StartPosQueueAt (size-1)` ascend by `costdiff`; and
(c) each push inserts the new entry in costdiff order into the previous
content truncated to its 7 smallest — a full queue first discards its
largest retained entry, whatever the incoming costdiff is, so the retained
set is `queueSpecList`, not necessarily the 8 globally smallest pushed. -/
theorem StartPosQueue_push_sequence_spec (ps : List PosData) :
    StartPosQueueSize (ps.foldl StartPosQueuePush InitStartPosQueue) = min ps.length 8 ∧
    List.Sorted cdLE (queueList (ps.foldl StartPosQueuePush InitStartPosQueue)) ∧
    queueList (ps.foldl StartPosQueuePush InitStartPosQueue) = queueSpecList ps := by
  obtain ⟨h1, h2, h3⟩ := queue_fold_inv ps InitStartPosQueue [] rfl List.sorted_nil
  refine ⟨?_, ?_, h1⟩
  · rw [StartPosQueueSize, h3]
    simp only [InitStartPosQueue]
    omega
  · rw [h1]
    exact h2

set_option maxRecDepth 100000

/-- Claim C2, counterexample to part (c): after pushing costdiffs
1,2,...,8,100, the queue retains `{1,...,7,100}` — the push of 100 onto the
full queue evicted the entry with costdiff 8 even though 8 < 100, so the
retained entries are not the 8 pushed entries with smallest costdiff. -/
theorem StartPosQueue_not_eight_smallest :
    (queueList (cePushes.foldl StartPosQueuePush InitStartPosQueue)).map PosData.costdiff =
      [1, 2, 3, 4, 5, 6, 7, 100] ∧
    cePosData 8 ∈ cePushes ∧ (8 : ℚ) < 100 ∧
    cePosData 8 ∉ queueList (cePushes.foldl StartPosQueuePush InitStartPosQueue) := by
  refine ⟨?_, ?_, ?_, ?_⟩ <;> decide

lemma ZopfliNodeCommandLength_congr {a b : ZopfliNode}
    (h1 : a.length = b.length) (h3 : a.insert_length = b.insert_length) :
    ZopfliNodeCommandLength a = ZopfliNodeCommandLength b := by
  unfold ZopfliNodeCommandLength ZopfliNodeCopyLength
  rw [h1, h3]

lemma findLastReachable_spec (nodes : ℕ → ZopfliNode)
    (h0 : (nodes 0).u.costVal ≠ ⊤) :
    ∀ n, ∃ e, findLastReachable nodes n = some e ∧ e ≤ n ∧
      (nodes e).u.costVal ≠ ⊤ ∧ ∀ j, e < j → j ≤ n → (nodes j).u.costVal = ⊤ := by
  intro n
  induction n with
  | zero =>
    refine ⟨0, ?_, le_refl 0, h0, ?_⟩
    · simp [findLastReachable, h0]
    · intro j hj1 hj2
      omega
  | succ n ih =>
    by_cases hc : (nodes (n + 1)).u.costVal = ⊤
    · obtain ⟨e, h1, h2, h3, h4⟩ := ih
      refine ⟨e, ?_, by omega, h3, ?_⟩
      · simp [findLastReachable, hc, h1]
      · intro j hj1 hj2
        rcases Nat.eq_or_lt_of_le hj2 with h | h
        · rw [h]
          exact hc
        · exact h4 j hj1 (by omega)
    · refine ⟨n + 1, ?_, le_refl _, hc, ?_⟩
      · simp [findLastReachable, hc]
      · intro j hj1 hj2
        omega

lemma zopfliBackWalk_spec (nodes : ℕ → ZopfliNode) (n : ℕ)
    (hinv : ZopfliNodeArrayInvariant nodes n) :
    ∀ fuel index ncmd (W : ℕ → ZopfliNode),
      (∀ j, (W j).length = (nodes j).length ∧ (W j).distance = (nodes j).distance ∧
        (W j).insert_length = (nodes j).insert_length) →
      index ≤ n → index ≤ fuel → (nodes index).u.costVal ≠ ⊤ →
      ∃ F m ps,
        zopfliBackWalk W fuel index ncmd = some (F, ncmd + m) ∧
        (∀ j, index ≤ j → F j = W j) ∧
        (∀ j, (F j).length = (nodes j).length ∧ (F j).distance = (nodes j).distance ∧
          (F j).insert_length = (nodes j).insert_length) ∧
        ps.length = m + 1 ∧ ps.head? = some 0 ∧ ps.getLast? = some index ∧
        List.Chain' (fun a b => (F a).u = ZNodeU.next (b - a) ∧ a < b ∧
          b = a + ZopfliNodeCommandLength (nodes b)) ps ∧
        (∀ x ∈ ps, x ≤ index) := by
  intro fuel
  induction fuel with
  | zero =>
    intro index ncmd W hagree hin hif hcost
    have hz : index = 0 := by omega
    subst hz
    refine ⟨W, 0, [0], by simp [zopfliBackWalk], fun j _ => rfl, hagree, by simp, by simp,
      by simp, List.chain'_singleton 0, ?_⟩
    intro x hx
    simp at hx
    omega
  | succ f ih =>
    intro index ncmd W hagree hin hif hcost
    by_cases hidx : index = 0
    · subst hidx
      refine ⟨W, 0, [0], by simp [zopfliBackWalk], fun j _ => rfl, hagree, by simp, by simp,
        by simp, List.chain'_singleton 0, ?_⟩
      intro x hx
      simp at hx
      omega
    · have hlenW : ZopfliNodeCommandLength (W index) = ZopfliNodeCommandLength (nodes index) :=
        ZopfliNodeCommandLength_congr (hagree index).1 (hagree index).2.2
      obtain ⟨hl2, hlle, hcost'⟩ := hinv index hin (by omega) hcost
      set len := ZopfliNodeCommandLength (nodes index) with hlendef
      have hstep : zopfliBackWalk W (f + 1) index ncmd =
          zopfliBackWalk (setNext W (index - len) len) f (index - len) (ncmd + 1) := by
        simp only [zopfliBackWalk]
        rw [if_neg hidx, hlenW, if_neg (by omega)]
      have hagree' : ∀ j, ((setNext W (index - len) len) j).length = (nodes j).length ∧
          ((setNext W (index - len) len) j).distance = (nodes j).distance ∧
          ((setNext W (index - len) len) j).insert_length = (nodes j).insert_length := by
        intro j
        unfold setNext
        by_cases hj : j = index - len
        · rw [if_pos hj, hj]
          exact ⟨(hagree (index - len)).1, (hagree (index - len)).2.1,
            (hagree (index - len)).2.2⟩
        · rw [if_neg hj]
          exact hagree j
      obtain ⟨F, m', ps', hwalk, hframe, hagreeF, hlen', hhead', hlast', hchain', hmem'⟩ :=
        ih (index - len) (ncmd + 1) (setNext W (index - len) len) hagree'
          (by omega) (by omega) hcost'
      refine ⟨F, m' + 1, ps' ++ [index], ?_, ?_, hagreeF, ?_, ?_, ?_, ?_, ?_⟩
      · have harith : ncmd + 1 + m' = ncmd + (m' + 1) := by omega
        rw [hstep, hwalk, harith]
      · intro j hj
        rw [hframe j (by omega)]
        unfold setNext
        rw [if_neg (by omega)]
      · simp [hlen']
      · cases ps' with
        | nil => simp at hlen'
        | cons a t =>
          simp only [List.cons_append, List.head?_cons]
          simp only [List.head?_cons] at hhead'
          exact hhead'
      · exact List.getLast?_concat _
      · rw [List.chain'_append]
        refine ⟨hchain', List.chain'_singleton index, ?_⟩
        intro x hx y hy
        simp only [List.head?_cons, Option.mem_def, Option.some.injEq] at hy
        rw [hlast'] at hx
        simp only [Option.mem_def, Option.some.injEq] at hx
        subst hx
        subst hy
        refine ⟨?_, by omega, by omega⟩
        have h1 : F (index - len) = setNext W (index - len) len (index - len) :=
          hframe _ (le_refl _)
        rw [h1]
        unfold setNext
        rw [if_pos rfl]
        have h2 : index - (index - len) = len := by omega
        rw [h2]
      · intro x hx
        rcases List.mem_append.mp hx with h | h
        · exact le_trans (hmem' x h) (by omega)
        · simp at h
          omega

lemma setNext_agree (nodes : ℕ → ZopfliNode) (i v : ℕ) :
    ∀ j, ((setNext nodes i v) j).length = (nodes j).length ∧
      ((setNext nodes i v) j).distance = (nodes j).distance ∧
      ((setNext nodes i v) j).insert_length = (nodes j).insert_length := by
  intro j
  unfold setNext
  by_cases hj : j = i
  · rw [if_pos hj, hj]
    exact ⟨rfl, rfl, rfl⟩
  · rw [if_neg hj]
    exact ⟨rfl, rfl, rfl⟩

lemma ComputeShortestPathFromNodes_chain (nodes : ℕ → ZopfliNode) (n : ℕ)
    (h0 : (nodes 0).u.costVal ≠ ⊤) (hinv : ZopfliNodeArrayInvariant nodes n) :
    ∃ F m e ps,
      ComputeShortestPathFromNodes n nodes = some (F, m) ∧
      findLastReachable nodes n = some e ∧ e ≤ n ∧
      (nodes e).u.costVal ≠ ⊤ ∧
      (∀ j, e < j → j ≤ n → (nodes j).u.costVal = ⊤) ∧
      (F e).u = ZNodeU.next BROTLI_UINT32_MAX ∧
      ps.length = m + 1 ∧ ps.head? = some 0 ∧ ps.getLast? = some e ∧
      List.Chain' (fun a b => (F a).u = ZNodeU.next (b - a) ∧ a < b ∧
        b = a + ZopfliNodeCommandLength (nodes b)) ps ∧
      (∀ x ∈ ps, x ≤ e) ∧
      (∀ j, (F j).length = (nodes j).length ∧ (F j).distance = (nodes j).distance ∧
        (F j).insert_length = (nodes j).insert_length) := by
  obtain ⟨e, hscan, hen, hecost, habove⟩ := findLastReachable_spec nodes h0 n
  obtain ⟨F, m, ps, hwalk, hframe, hagreeF, hlen, hhead, hlast, hchain, hmem⟩ :=
    zopfliBackWalk_spec nodes n hinv e e 0 (setNext nodes e BROTLI_UINT32_MAX)
      (setNext_agree nodes e BROTLI_UINT32_MAX) hen (le_refl e) hecost
  refine ⟨F, m, e, ps, ?_, hscan, hen, hecost, habove, ?_, hlen, hhead, hlast, hchain,
    hmem, hagreeF⟩
  · unfold ComputeShortestPathFromNodes
    rw [hscan]
    show zopfliBackWalk (setNext nodes e BROTLI_UINT32_MAX) e e 0 = some (F, m)
    rw [hwalk]
    norm_num
  · rw [hframe e (le_refl e)]
    unfold setNext
    rw [if_pos rfl]

lemma followNext_of_chain (nodes F : ℕ → ZopfliNode) (bnd : ℕ)
    (hbnd : bnd < BROTLI_UINT32_MAX) :
    ∀ (t : List ℕ) (a : ℕ),
      List.Chain' (fun x b => (F x).u = ZNodeU.next (b - x) ∧ x < b ∧
        b = x + ZopfliNodeCommandLength (nodes b)) (a :: t) →
      (∀ x ∈ a :: t, x ≤ bnd) →
      (F ((a :: t).getLast (List.cons_ne_nil a t))).u = ZNodeU.next BROTLI_UINT32_MAX →
      followNext F t.length a = a :: t := by
  intro t
  induction t with
  | nil =>
    intro a _ _ _
    rfl
  | cons b t' ih =>
    intro a hchain hmem hlastu
    obtain ⟨⟨hu, hab, _⟩, hchain'⟩ := List.chain'_cons.mp hchain
    show (a ::
      (match (F a).u with
        | ZNodeU.next v =>
          if v = BROTLI_UINT32_MAX then [] else followNext F t'.length (a + v)
        | ZNodeU.cost _ => []) : List ℕ) = a :: b :: t'
    rw [hu]
    show (a ::
      (if b - a = BROTLI_UINT32_MAX then [] else followNext F t'.length (a + (b - a))) :
        List ℕ) = a :: b :: t'
    have hne : b - a ≠ BROTLI_UINT32_MAX := by
      have hb := hmem b (by simp)
      unfold BROTLI_UINT32_MAX at hbnd ⊢
      omega
    rw [if_neg hne]
    have hba : a + (b - a) = b := by omega
    rw [hba]
    congr 1
    apply ih b hchain'
    · intro x hx
      exact hmem x (by simp [hx])
    · have hgl : (b :: t').getLast (List.cons_ne_nil b t') =
          (a :: b :: t').getLast (List.cons_ne_nil a (b :: t')) :=
        (List.getLast_cons (List.cons_ne_nil b t')).symm
      rw [hgl]
      exact hlastu

lemma cspfn_master (n : ℕ) (nodes : ℕ → ZopfliNode)
    (hn : n < BROTLI_UINT32_MAX) (h0 : (nodes 0).u.costVal ≠ ⊤)
    (hinv : ZopfliNodeArrayInvariant nodes n) :
    ∃ F m e,
      ComputeShortestPathFromNodes n nodes = some (F, m) ∧
      findLastReachable nodes n = some e ∧ e ≤ n ∧
      (nodes e).u.costVal ≠ ⊤ ∧
      (∀ j, e < j → j ≤ n → (nodes j).u.costVal = ⊤) ∧
      (F e).u = ZNodeU.next BROTLI_UINT32_MAX ∧
      (followNext F m 0).length = m + 1 ∧
      (followNext F m 0).head? = some 0 ∧
      (followNext F m 0).getLast? = some e ∧
      List.Chain' (fun a b => (F a).u = ZNodeU.next (b - a) ∧ a < b ∧
        b = a + ZopfliNodeCommandLength (nodes b)) (followNext F m 0) ∧
      (∀ x ∈ followNext F m 0, x ≤ e) ∧
      (∀ j, (F j).length = (nodes j).length ∧ (F j).distance = (nodes j).distance ∧
        (F j).insert_length = (nodes j).insert_length) := by
  obtain ⟨F, m, e, ps, hrun, hscan, hen, hecost, habove, hsent, hlen, hhead, hlast,
    hchain, hmem, hagreeF⟩ := ComputeShortestPathFromNodes_chain nodes n h0 hinv
  obtain ⟨t, rfl⟩ : ∃ t, ps = 0 :: t := by
    cases ps with
    | nil => simp at hhead
    | cons a t =>
      simp only [List.head?_cons, Option.some.injEq] at hhead
      exact ⟨t, by rw [hhead]⟩
  have hm : t.length = m := by
    simp only [List.length_cons] at hlen
    omega
  have hge : (0 :: t).getLast (List.cons_ne_nil 0 t) = e := by
    have := List.getLast?_eq_getLast (0 :: t) (List.cons_ne_nil 0 t)
    rw [this] at hlast
    exact Option.some.inj hlast
  have hfn : followNext F m 0 = 0 :: t := by
    rw [← hm]
    apply followNext_of_chain nodes F n hn t 0 hchain
    · intro x hx
      exact le_trans (hmem x hx) hen
    · rw [hge]
      exact hsent
  refine ⟨F, m, e, hrun, hscan, hen, hecost, habove, hsent, ?_, ?_, ?_, ?_, ?_, hagreeF⟩
  · rw [hfn]
    exact hlen
  · rw [hfn]
    exact hhead
  · rw [hfn]
    exact hlast
  · rw [hfn]
    exact hchain
  · rw [hfn]
    exact hmem

/-- Claim C8: for a node array with `nodes[0].cost = 0` satisfying the node
array invariant, `ComputeShortestPathFromNodes` selects `e`, the largest
index `≤ num_bytes` with finite cost, writes the end sentinel into
`nodes[e].next`, and records each subtracted command length as the
predecessor's `next`, so that following the `next` pointers from node 0
yields a forward-linked chain of commands (each link advancing by exactly
the command length of its target node) ending exactly at `e`; the returned
value is the number of links of that chain. -/
theorem ComputeShortestPathFromNodes_backtrace (n : ℕ) (nodes : ℕ → ZopfliNode)
    (hn : n < BROTLI_UINT32_MAX) (h0 : (nodes 0).u = ZNodeU.cost 0)
    (hinv : ZopfliNodeArrayInvariant nodes n) :
    ∃ F m e,
      ComputeShortestPathFromNodes n nodes = some (F, m) ∧
      findLastReachable nodes n = some e ∧ e ≤ n ∧
      (nodes e).u.costVal ≠ ⊤ ∧
      (∀ j, e < j → j ≤ n → (nodes j).u.costVal = ⊤) ∧
      (F e).u = ZNodeU.next BROTLI_UINT32_MAX ∧
      (followNext F m 0).length = m + 1 ∧
      (followNext F m 0).head? = some 0 ∧
      (followNext F m 0).getLast? = some e ∧
      List.Chain' (fun a b => (F a).u = ZNodeU.next (b - a) ∧ a < b ∧
        b = a + ZopfliNodeCommandLength (nodes b)) (followNext F m 0) := by
  have h0' : (nodes 0).u.costVal ≠ ⊤ := by
    rw [h0]
    decide
  obtain ⟨F, m, e, hrun, hscan, hen, hecost, habove, hsent, hlen, hhead, hlast, hchain,
    _, _⟩ := cspfn_master n nodes hn h0' hinv
  exact ⟨F, m, e, hrun, hscan, hen, hecost, habove, hsent, hlen, hhead, hlast, hchain⟩

/-- Claim C10: under the callers' precondition (`nodes[0].cost = 0` and
every finite-cost node written by `UpdateZopfliNode`, so a command of
length in `[2, p]` whose start has finite cost), the initial scan of
`ComputeShortestPathFromNodes` stops at some index (without decrementing
past 0 — in particular it reaches index 0 when all of `nodes[1..n]` are
unreached), and the backward walk terminates: the visited indices strictly
decrease from `e` to exactly 0 and stay within `[0, num_bytes]` (here read
off the forward chain, the walk's visit sequence reversed). -/
theorem ComputeShortestPathFromNodes_terminates_in_bounds (n : ℕ)
    (nodes : ℕ → ZopfliNode) (hn : n < BROTLI_UINT32_MAX)
    (h0 : (nodes 0).u = ZNodeU.cost 0) (hinv : ZopfliNodeArrayInvariant nodes n) :
    ∃ F m e,
      ComputeShortestPathFromNodes n nodes = some (F, m) ∧
      findLastReachable nodes n = some e ∧ e ≤ n ∧
      (followNext F m 0).head? = some 0 ∧
      (followNext F m 0).getLast? = some e ∧
      List.Chain' (· < ·) (followNext F m 0) ∧
      (∀ x ∈ followNext F m 0, x ≤ n) := by
  have h0' : (nodes 0).u.costVal ≠ ⊤ := by
    rw [h0]
    decide
  obtain ⟨F, m, e, hrun, hscan, hen, _, _, _, _, hhead, hlast, hchain, hmem, _⟩ :=
    cspfn_master n nodes hn h0' hinv
  refine ⟨F, m, e, hrun, hscan, hen, hhead, hlast, ?_, ?_⟩
  · exact List.Chain'.imp (fun a b h => h.2.1) hchain
  · intro x hx
    exact le_trans (hmem x hx) hen

/-- Witness for `ComputeShortestPathFromNodes_backtrace` on `witNodes` with
`num_bytes = 3`. -/
theorem ComputeShortestPathFromNodes_backtrace_witness :
    ((3 : ℕ) < BROTLI_UINT32_MAX ∧ (witNodes 0).u = ZNodeU.cost 0 ∧
      ZopfliNodeArrayInvariant witNodes 3) ∧
    (∃ F m e,
      ComputeShortestPathFromNodes 3 witNodes = some (F, m) ∧
      findLastReachable witNodes 3 = some e ∧ e ≤ 3 ∧
      (witNodes e).u.costVal ≠ ⊤ ∧
      (∀ j, e < j → j ≤ 3 → (witNodes j).u.costVal = ⊤) ∧
      (F e).u = ZNodeU.next BROTLI_UINT32_MAX ∧
      (followNext F m 0).length = m + 1 ∧
      (followNext F m 0).head? = some 0 ∧
      (followNext F m 0).getLast? = some e ∧
      List.Chain' (fun a b => (F a).u = ZNodeU.next (b - a) ∧ a < b ∧
        b = a + ZopfliNodeCommandLength (witNodes b)) (followNext F m 0)) :=
  ⟨⟨by decide, by decide, by decide⟩,
    ComputeShortestPathFromNodes_backtrace 3 witNodes (by decide) (by decide) (by decide)⟩

/-- Witness for `ComputeShortestPathFromNodes_terminates_in_bounds` on
`witNodes` with `num_bytes = 3`. -/
theorem ComputeShortestPathFromNodes_terminates_in_bounds_witness :
    ((3 : ℕ) < BROTLI_UINT32_MAX ∧ (witNodes 0).u = ZNodeU.cost 0 ∧
      ZopfliNodeArrayInvariant witNodes 3) ∧
    (∃ F m e,
      ComputeShortestPathFromNodes 3 witNodes = some (F, m) ∧
      findLastReachable witNodes 3 = some e ∧ e ≤ 3 ∧
      (followNext F m 0).head? = some 0 ∧
      (followNext F m 0).getLast? = some e ∧
      List.Chain' (· < ·) (followNext F m 0) ∧
      (∀ x ∈ followNext F m 0, x ≤ 3)) :=
  ⟨⟨by decide, by decide, by decide⟩,
    ComputeShortestPathFromNodes_terminates_in_bounds 3 witNodes (by decide) (by decide)
      (by decide)⟩

lemma cdcGo_eq (nodes : ℕ → ZopfliNode) (n block_start max_backward : ℕ)
    (hinv : ZopfliNodeArrayInvariant nodes n) :
    ∀ fuel p acc, p ≤ n → p ≤ fuel →
      ((nodes p).u.costVal ≠ ⊤ ∨ p = 0) → acc.length ≤ 4 →
      cdcGo nodes block_start max_backward fuel p acc =
        some (acc ++
          (backQualDistances nodes block_start max_backward fuel p).take (4 - acc.length)) := by
  intro fuel
  induction fuel with
  | zero =>
    intro p acc hpn hpf hc hacc
    have hp0 : p = 0 := by omega
    subst hp0
    simp [cdcGo, backQualDistances]
  | succ f ih =>
    intro p acc hpn hpf hc hacc
    by_cases hstop : 4 ≤ acc.length ∨ p = 0
    · rcases hstop with h4 | hp0
      · have hacc4 : acc.length = 4 := by omega
        simp [cdcGo, hacc4, backQualDistances]
      · subst hp0
        simp [cdcGo, backQualDistances]
    · push_neg at hstop
      obtain ⟨hacclt, hppos⟩ := hstop
      have hcost : (nodes p).u.costVal ≠ ⊤ := by
        rcases hc with h | h
        · exact h
        · exact absurd h hppos
      obtain ⟨hl2, hlle, hcost'⟩ := hinv p hpn (Nat.pos_of_ne_zero hppos) hcost
      have hcmd : ZopfliNodeCommandLength (nodes p) =
          ZopfliNodeCopyLength (nodes p) + (nodes p).insert_length := rfl
      have hguard : ¬ (ZopfliNodeCopyLength (nodes p) + (nodes p).insert_length = 0 ∨
          p < ZopfliNodeCopyLength (nodes p) + (nodes p).insert_length) := by
        rw [← hcmd]
        omega
      have hstep : cdcGo nodes block_start max_backward (f + 1) p acc =
          cdcGo nodes block_start max_backward f
            (p - (ZopfliNodeCopyLength (nodes p) + (nodes p).insert_length))
            (if ZopfliNodeCopyDistance (nodes p) + ZopfliNodeCopyLength (nodes p) ≤
                block_start + p ∧
              ZopfliNodeCopyDistance (nodes p) ≤ max_backward ∧
              0 < ZopfliNodeDistanceCode (nodes p)
              then acc ++ [(ZopfliNodeCopyDistance (nodes p) : ℤ)] else acc) := by
        simp only [cdcGo]
        rw [if_neg (by omega), if_neg hguard]
      have hq : backQualDistances nodes block_start max_backward (f + 1) p =
          (if ZopfliNodeCopyDistance (nodes p) + ZopfliNodeCopyLength (nodes p) ≤
              block_start + p ∧
            ZopfliNodeCopyDistance (nodes p) ≤ max_backward ∧
            0 < ZopfliNodeDistanceCode (nodes p)
            then [(ZopfliNodeCopyDistance (nodes p) : ℤ)] else []) ++
          backQualDistances nodes block_start max_backward f
            (p - (ZopfliNodeCopyLength (nodes p) + (nodes p).insert_length)) := by
        simp only [backQualDistances]
        rw [if_neg hppos]
      have hrec := fun acc' haccl' => ih
        (p - (ZopfliNodeCopyLength (nodes p) + (nodes p).insert_length)) acc'
        (by omega) (by rw [← hcmd] at *; omega) (by rw [← hcmd]; exact Or.inl hcost') haccl'
      rw [hstep, hq]
      by_cases hqual : ZopfliNodeCopyDistance (nodes p) + ZopfliNodeCopyLength (nodes p) ≤
          block_start + p ∧
          ZopfliNodeCopyDistance (nodes p) ≤ max_backward ∧
          0 < ZopfliNodeDistanceCode (nodes p)
      · rw [if_pos hqual, if_pos hqual]
        rw [hrec (acc ++ [(ZopfliNodeCopyDistance (nodes p) : ℤ)]) (by simp; omega)]
        congr 1
        have hlenacc : (acc ++ [(ZopfliNodeCopyDistance (nodes p) : ℤ)]).length =
            acc.length + 1 := by simp
        rw [hlenacc]
        have htake : 4 - acc.length = (4 - (acc.length + 1)) + 1 := by omega
        rw [htake]
        simp only [List.singleton_append, List.take_succ_cons, List.append_assoc,
          List.cons_append, List.nil_append]
      · rw [if_neg hqual, if_neg hqual]
        rw [hrec acc hacc]
        simp

lemma ComputeDistanceCache_eq_take_backQual (block_start pos max_backward : ℕ)
    (starting : DistCache) (nodes : ℕ → ZopfliNode) (n : ℕ)
    (hpn : pos ≤ n) (hcost : (nodes pos).u.costVal ≠ ⊤)
    (hinv : ZopfliNodeArrayInvariant nodes n) :
    ComputeDistanceCache block_start pos max_backward starting nodes =
      some (DistCache.ofPadded
        ((backQualDistances nodes block_start max_backward pos pos).take 4) starting) := by
  unfold ComputeDistanceCache
  rw [cdcGo_eq nodes n block_start max_backward hinv pos pos [] hpn (le_refl pos)
    (Or.inl hcost) (by simp)]
  simp

/-- Claim C6: for every position of finite cost (under the node-array
invariant), `ComputeDistanceCache` walks the back-pointers toward 0 and
writes, newest first, the distances of the nodes satisfying (i)
`dist + clen ≤ block_start + node_pos`, (ii) `dist ≤ max_backward`, (iii)
positive distance code — at most four of them — and fills the remaining
slots, in order, from `starting_dist_cache`. -/
theorem ComputeDistanceCache_reconstruction (block_start pos max_backward : ℕ)
    (starting : DistCache) (nodes : ℕ → ZopfliNode) (n : ℕ)
    (hpn : pos ≤ n) (hcost : (nodes pos).u.costVal ≠ ⊤)
    (hinv : ZopfliNodeArrayInvariant nodes n) :
    ComputeDistanceCache block_start pos max_backward starting nodes =
      some (DistCache.ofPadded
        ((backQualDistances nodes block_start max_backward pos pos).take 4) starting) :=
  ComputeDistanceCache_eq_take_backQual block_start pos max_backward starting nodes n
    hpn hcost hinv

/-- Witness for `ComputeDistanceCache_reconstruction` on `witNodes` at
position 3 (one qualifying command of distance 1; the cache pads with the
starting entries 7, 8, 9). -/
theorem ComputeDistanceCache_reconstruction_witness :
    ((3 : ℕ) ≤ 3 ∧ (witNodes 3).u.costVal ≠ ⊤ ∧ ZopfliNodeArrayInvariant witNodes 3) ∧
    ComputeDistanceCache 0 3 10 ⟨7, 8, 9, 10⟩ witNodes =
      some (DistCache.ofPadded ((backQualDistances witNodes 0 10 3 3).take 4)
        ⟨7, 8, 9, 10⟩) :=
  ⟨⟨by decide, by decide, by decide⟩,
    ComputeDistanceCache_reconstruction 0 3 10 ⟨7, 8, 9, 10⟩ witNodes 3 (by decide)
      (by decide) (by decide)⟩

lemma ZopfliNodeCopyLength_congr {a b : ZopfliNode} (h : a.length = b.length) :
    ZopfliNodeCopyLength a = ZopfliNodeCopyLength b := by
  unfold ZopfliNodeCopyLength
  rw [h]

lemma ZopfliNodeCopyDistance_congr {a b : ZopfliNode} (h : a.distance = b.distance) :
    ZopfliNodeCopyDistance a = ZopfliNodeCopyDistance b := by
  unfold ZopfliNodeCopyDistance
  rw [h]

lemma ZopfliNodeDistanceCode_congr {a b : ZopfliNode} (h : a.distance = b.distance) :
    ZopfliNodeDistanceCode a = ZopfliNodeDistanceCode b := by
  unfold ZopfliNodeDistanceCode ZopfliNodeCopyDistance
  rw [h]

lemma emitGo_step (initCommand : ℕ → ℕ → ℕ → ℕ → Command) (n bs mb : ℕ)
    (F : ℕ → ZopfliNode) (f pos offset : ℕ) (first : Bool) (cache : DistCache)
    (lil nl : ℕ) (cmds : List Command) (v : ℕ)
    (hoff : offset ≠ BROTLI_UINT32_MAX) (hu : (F (pos + offset)).u = ZNodeU.next v) :
    emitGo initCommand n bs mb F (f + 1) pos offset first cache lil nl cmds =
      emitGo initCommand n bs mb F f
        (pos + (F (pos + offset)).insert_length + ZopfliNodeCopyLength (F (pos + offset)))
        v false
        (if ¬ min (bs + (pos + (F (pos + offset)).insert_length)) mb <
              ZopfliNodeCopyDistance (F (pos + offset)) ∧
            0 < ZopfliNodeDistanceCode (F (pos + offset)) then
          cache.shift ((ZopfliNodeCopyDistance (F (pos + offset)) : ℤ))
        else cache)
        (if first then 0 else lil)
        (nl + (if first then (F (pos + offset)).insert_length + lil
          else (F (pos + offset)).insert_length))
        (cmds ++ [initCommand
          (if first then (F (pos + offset)).insert_length + lil
            else (F (pos + offset)).insert_length)
          (ZopfliNodeCopyLength (F (pos + offset)))
          (ZopfliNodeLengthCode (F (pos + offset)))
          (ZopfliNodeDistanceCode (F (pos + offset)))]) := by
  simp only [emitGo]
  rw [if_neg hoff, hu]

lemma emitGo_chain (initCommand : ℕ → ℕ → ℕ → ℕ → Command) (n bs mb : ℕ)
    (hn : n < BROTLI_UINT32_MAX) (nodes F : ℕ → ZopfliNode)
    (hagree : ∀ j, (F j).length = (nodes j).length ∧ (F j).distance = (nodes j).distance ∧
      (F j).insert_length = (nodes j).insert_length) :
    ∀ (t : List ℕ) (a fuel : ℕ) (first : Bool) (cache : DistCache) (lil nl : ℕ)
      (cmds : List Command),
      t.length ≤ fuel →
      List.Chain' (fun x b => (F x).u = ZNodeU.next (b - x) ∧ x < b ∧
        b = x + ZopfliNodeCommandLength (nodes b)) (a :: t) →
      (F ((a :: t).getLast (List.cons_ne_nil a t))).u = ZNodeU.next BROTLI_UINT32_MAX →
      (∀ x ∈ a :: t, x ≤ n) →
      ∃ off cmds' lilF nlF,
        (F a).u = ZNodeU.next off ∧
        emitGo initCommand n bs mb F fuel a off first cache lil nl cmds =
          some (cmds', cacheSpecFold nodes bs mb cache t, lilF, nlF) := by
  intro t
  induction t with
  | nil =>
    intro a fuel first cache lil nl cmds _ _ hsent _
    refine ⟨BROTLI_UINT32_MAX, cmds, lil + (n - a), nl, hsent, ?_⟩
    cases fuel <;> simp [emitGo, cacheSpecFold]
  | cons b t' ih =>
    intro a fuel first cache lil nl cmds hfuel hchain hsent hmem
    obtain ⟨⟨hu, hab, hcmdb⟩, hchain'⟩ := List.chain'_cons.mp hchain
    obtain ⟨f, rfl⟩ : ∃ f, fuel = f + 1 := ⟨fuel - 1, by simp at hfuel; omega⟩
    have hbn : b ≤ n := hmem b (by simp)
    have hoffne : b - a ≠ BROTLI_UINT32_MAX := by
      unfold BROTLI_UINT32_MAX at hn ⊢
      omega
    have hanode : a + (b - a) = b := by omega
    have hsent' : (F ((b :: t').getLast (List.cons_ne_nil b t'))).u =
        ZNodeU.next BROTLI_UINT32_MAX := by
      have hgl : (b :: t').getLast (List.cons_ne_nil b t') =
          (a :: b :: t').getLast (List.cons_ne_nil a (b :: t')) :=
        (List.getLast_cons (List.cons_ne_nil b t')).symm
      rw [hgl]
      exact hsent
    have hmem' : ∀ x ∈ b :: t', x ≤ n := fun x hx => hmem x (by simp [hx])
    -- relate the fields of F b and nodes b
    have hclen : ZopfliNodeCopyLength (F b) = ZopfliNodeCopyLength (nodes b) :=
      ZopfliNodeCopyLength_congr (hagree b).1
    have hilen : (F b).insert_length = (nodes b).insert_length := (hagree b).2.2
    have hdist : ZopfliNodeCopyDistance (F b) = ZopfliNodeCopyDistance (nodes b) :=
      ZopfliNodeCopyDistance_congr (hagree b).2.1
    have hdc : ZopfliNodeDistanceCode (F b) = ZopfliNodeDistanceCode (nodes b) :=
      ZopfliNodeDistanceCode_congr (hagree b).2.1
    have hcmdlen : ZopfliNodeCommandLength (nodes b) =
        ZopfliNodeCopyLength (nodes b) + (nodes b).insert_length := rfl
    have hposb : a + (F b).insert_length + ZopfliNodeCopyLength (F b) = b := by
      rw [hilen, hclen]
      omega
    have hcachestep :
        (if ¬ min (bs + (a + (F b).insert_length)) mb < ZopfliNodeCopyDistance (F b) ∧
            0 < ZopfliNodeDistanceCode (F b) then
          cache.shift ((ZopfliNodeCopyDistance (F b) : ℤ))
        else cache) =
        (if emitterQualifies nodes bs mb b then
          cache.shift ((ZopfliNodeCopyDistance (nodes b) : ℤ))
        else cache) := by
      rw [hdist, hdc]
      have hiff : (¬ min (bs + (a + (F b).insert_length)) mb <
            ZopfliNodeCopyDistance (nodes b) ∧ 0 < ZopfliNodeDistanceCode (nodes b)) ↔
          emitterQualifies nodes bs mb b := by
        unfold emitterQualifies
        rw [not_lt, hilen]
        have harg : a + (nodes b).insert_length = b - ZopfliNodeCopyLength (nodes b) := by
          omega
        rw [harg]
      rw [if_congr hiff rfl rfl]
    obtain ⟨off2, cmds2, lil2, nl2, hoff2, hemit2⟩ := ih b f false
      (if emitterQualifies nodes bs mb b then
        cache.shift ((ZopfliNodeCopyDistance (nodes b) : ℤ)) else cache)
      (if first then 0 else lil)
      (nl + (if first then (F b).insert_length + lil else (F b).insert_length))
      (cmds ++ [initCommand
        (if first then (F b).insert_length + lil else (F b).insert_length)
        (ZopfliNodeCopyLength (F b)) (ZopfliNodeLengthCode (F b))
        (ZopfliNodeDistanceCode (F b))])
      (by simp at hfuel ⊢; omega) hchain' hsent' hmem'
    refine ⟨b - a, cmds2, lil2, nl2, hu, ?_⟩
    have hub : (F (a + (b - a))).u = ZNodeU.next off2 := by
      rw [hanode]
      exact hoff2
    rw [emitGo_step initCommand n bs mb F f a (b - a) first cache lil nl cmds off2
      hoffne hub]
    have hfold : cacheSpecFold nodes bs mb cache (b :: t') =
        cacheSpecFold nodes bs mb
          (if emitterQualifies nodes bs mb b then
            cache.shift ((ZopfliNodeCopyDistance (nodes b) : ℤ)) else cache) t' := by
      unfold cacheSpecFold
      rw [List.foldl_cons]
    rw [hfold]
    -- rewrite positions a + (b - a) to b and align with the IH instance
    rw [show a + (b - a) = b from hanode] at *
    rw [hcachestep, hposb]
    exact hemit2

lemma chain_lt_bound (n : ℕ) : ∀ (t : List ℕ) (a : ℕ),
    List.Chain' (· < ·) (a :: t) → (∀ x ∈ a :: t, x ≤ n) → a + t.length ≤ n := by
  intro t
  induction t with
  | nil =>
    intro a _ hmem
    simpa using hmem a (by simp)
  | cons b t' ih =>
    intro a hchain hmem
    obtain ⟨hab, hchain'⟩ := List.chain'_cons.mp hchain
    have := ih b hchain' (fun x hx => hmem x (by simp [List.mem_cons] at hx ⊢; tauto))
    simp only [List.length_cons]
    omega

lemma BrotliZopfliCreateCommands_chain (initCommand : ℕ → ℕ → ℕ → ℕ → Command)
    (n bs mb : ℕ) (hn : n < BROTLI_UINT32_MAX) (nodes F : ℕ → ZopfliNode)
    (hagree : ∀ j, (F j).length = (nodes j).length ∧ (F j).distance = (nodes j).distance ∧
      (F j).insert_length = (nodes j).insert_length)
    (t : List ℕ)
    (hchain : List.Chain' (fun x b => (F x).u = ZNodeU.next (b - x) ∧ x < b ∧
      b = x + ZopfliNodeCommandLength (nodes b)) (0 :: t))
    (hsent : (F ((0 :: t).getLast (List.cons_ne_nil 0 t))).u =
      ZNodeU.next BROTLI_UINT32_MAX)
    (hmem : ∀ x ∈ 0 :: t, x ≤ n) (cache : DistCache) (lil nl : ℕ) :
    ∃ cmds' lilF nlF,
      BrotliZopfliCreateCommands initCommand n bs mb F cache lil nl =
        some (cmds', cacheSpecFold nodes bs mb cache t, lilF, nlF) := by
  have hlen : t.length ≤ n := by
    have := chain_lt_bound n t 0
      (List.Chain'.imp (fun a b h => h.2.1) hchain) hmem
    omega
  obtain ⟨off, cmds', lilF, nlF, hoff, hemit⟩ := emitGo_chain initCommand n bs mb hn
    nodes F hagree t 0 (n + 1) true cache lil nl [] (by omega) hchain hsent hmem
  refine ⟨cmds', lilF, nlF, ?_⟩
  unfold BrotliZopfliCreateCommands
  rw [hoff]
  exact hemit

/-- Claim C9: over any back-pointer chain from node 0 (links matching
command lengths, sentinel at the end), `BrotliZopfliCreateCommands` shifts
the persistent 4-entry distance cache (`cache[3..1] ← cache[2..0];
cache[0] ← distance`) exactly for the commands that are non-dictionary
(`distance ≤ min(block_start + copy-start, max_backward_limit)`) and have
distance code > 0 — that is the fold `cacheSpecFold` — and a run that emits
zero commands (node 0 already carries the end sentinel) leaves all four
entries unchanged. -/
theorem BrotliZopfliCreateCommands_cache_frame_effect
    (initCommand : ℕ → ℕ → ℕ → ℕ → Command) (n bs mb : ℕ)
    (hn : n < BROTLI_UINT32_MAX) (nodes F : ℕ → ZopfliNode)
    (hagree : ∀ j, (F j).length = (nodes j).length ∧ (F j).distance = (nodes j).distance ∧
      (F j).insert_length = (nodes j).insert_length)
    (t : List ℕ)
    (hchain : List.Chain' (fun x b => (F x).u = ZNodeU.next (b - x) ∧ x < b ∧
      b = x + ZopfliNodeCommandLength (nodes b)) (0 :: t))
    (hsent : (F ((0 :: t).getLast (List.cons_ne_nil 0 t))).u =
      ZNodeU.next BROTLI_UINT32_MAX)
    (hmem : ∀ x ∈ 0 :: t, x ≤ n) (cache : DistCache) (lil nl : ℕ) :
    (∃ cmds' lilF nlF,
      BrotliZopfliCreateCommands initCommand n bs mb F cache lil nl =
        some (cmds', cacheSpecFold nodes bs mb cache t, lilF, nlF)) ∧
    ((F 0).u = ZNodeU.next BROTLI_UINT32_MAX →
      BrotliZopfliCreateCommands initCommand n bs mb F cache lil nl =
        some ([], cache, lil + n, nl)) := by
  constructor
  · exact BrotliZopfliCreateCommands_chain initCommand n bs mb hn nodes F hagree t
      hchain hsent hmem cache lil nl
  · intro h0
    unfold BrotliZopfliCreateCommands
    rw [h0]
    show emitGo initCommand n bs mb F (n + 1) 0 BROTLI_UINT32_MAX true cache lil nl [] = _
    simp [emitGo]

lemma witNodesF_agree : ∀ j, (witNodesF j).length = (witNodes j).length ∧
    (witNodesF j).distance = (witNodes j).distance ∧
    (witNodesF j).insert_length = (witNodes j).insert_length := by
  intro j
  have h1 := setNext_agree (setNext witNodes 3 BROTLI_UINT32_MAX) 0 3 j
  have h2 := setNext_agree witNodes 3 BROTLI_UINT32_MAX j
  exact ⟨h1.1.trans h2.1, h1.2.1.trans h2.2.1, h1.2.2.trans h2.2.2⟩

/-- Witness for `BrotliZopfliCreateCommands_cache_frame_effect` on the
one-command chain `[0, 3]` of `witNodesF`. -/
theorem BrotliZopfliCreateCommands_cache_frame_effect_witness :
    ((3 : ℕ) < BROTLI_UINT32_MAX ∧
      List.Chain' (fun x b => (witNodesF x).u = ZNodeU.next (b - x) ∧ x < b ∧
        b = x + ZopfliNodeCommandLength (witNodes b)) (0 :: [3]) ∧
      (witNodesF ((0 :: [3]).getLast (List.cons_ne_nil 0 [3]))).u =
        ZNodeU.next BROTLI_UINT32_MAX ∧
      (∀ x ∈ (0 :: [3] : List ℕ), x ≤ 3)) ∧
    ((∃ cmds' lilF nlF,
      BrotliZopfliCreateCommands Command.mk 3 0 10 witNodesF ⟨7, 8, 9, 10⟩ 2 0 =
        some (cmds', cacheSpecFold witNodes 0 10 ⟨7, 8, 9, 10⟩ [3], lilF, nlF)) ∧
    ((witNodesF 0).u = ZNodeU.next BROTLI_UINT32_MAX →
      BrotliZopfliCreateCommands Command.mk 3 0 10 witNodesF ⟨7, 8, 9, 10⟩ 2 0 =
        some ([], ⟨7, 8, 9, 10⟩, 2 + 3, 0))) :=
  ⟨⟨by decide, by rw [List.chain'_pair]; decide, by decide, by decide⟩,
    BrotliZopfliCreateCommands_cache_frame_effect Command.mk 3 0 10 (by decide)
      witNodes witNodesF witNodesF_agree [3] (by rw [List.chain'_pair]; decide)
      (by decide) (by decide) ⟨7, 8, 9, 10⟩ 2 0⟩

lemma ofPadded_take (l : List ℤ) (c : DistCache) :
    DistCache.ofPadded (l.take 4) c = DistCache.ofPadded l c := by
  match l with
  | [] => rfl
  | [a] => rfl
  | [a, b] => rfl
  | [a, b, d] => rfl
  | a :: b :: d :: e :: rest => rfl

lemma ofPadded_append_shift (r : List ℤ) (d : ℤ) (c : DistCache) :
    DistCache.ofPadded (r ++ [d]) c = DistCache.ofPadded r (c.shift d) := by
  match r with
  | [] => rfl
  | [a] => rfl
  | [a, b] => rfl
  | [a, b, e] => rfl
  | a :: b :: e :: f :: rest => rfl

lemma cacheSpecFold_eq_ofPadded (nodes : ℕ → ZopfliNode) (bs mb : ℕ) :
    ∀ (t : List ℕ) (cache : DistCache),
      cacheSpecFold nodes bs mb cache t =
        DistCache.ofPadded ((t.filterMap (emitQualDist nodes bs mb)).reverse) cache := by
  intro t
  induction t with
  | nil =>
    intro cache
    rfl
  | cons p t' ih =>
    intro cache
    have hstep : cacheSpecFold nodes bs mb cache (p :: t') =
        cacheSpecFold nodes bs mb
          (if emitterQualifies nodes bs mb p then
            cache.shift ((ZopfliNodeCopyDistance (nodes p) : ℤ)) else cache) t' := by
      unfold cacheSpecFold
      rw [List.foldl_cons]
    rw [hstep]
    by_cases hq : emitterQualifies nodes bs mb p
    · rw [if_pos hq, ih]
      have hfm : (p :: t').filterMap (emitQualDist nodes bs mb) =
          (ZopfliNodeCopyDistance (nodes p) : ℤ) ::
            t'.filterMap (emitQualDist nodes bs mb) := by
        rw [List.filterMap_cons]
        simp [emitQualDist, hq]
      rw [hfm, List.reverse_cons, ofPadded_append_shift]
    · rw [if_neg hq, ih]
      have hfm : (p :: t').filterMap (emitQualDist nodes bs mb) =
          t'.filterMap (emitQualDist nodes bs mb) := by
        rw [List.filterMap_cons]
        simp [emitQualDist, hq]
      rw [hfm]

lemma backQual_of_chain (nodes : ℕ → ZopfliNode) (bs mb : ℕ) :
    ∀ (t : List ℕ),
      List.Chain' (fun x b => x < b ∧ b = x + ZopfliNodeCommandLength (nodes b))
        (0 :: t) →
      ∀ fuel, (0 :: t).getLast (List.cons_ne_nil 0 t) ≤ fuel →
      backQualDistances nodes bs mb fuel ((0 :: t).getLast (List.cons_ne_nil 0 t)) =
        (t.filterMap (emitQualDist nodes bs mb)).reverse := by
  intro t
  induction t using List.reverseRecOn with
  | nil =>
    intro _ fuel _
    cases fuel <;> simp [backQualDistances]
  | append_singleton t' b ih =>
    intro hchain fuel hfuel
    have hcons : (0 : ℕ) :: (t' ++ [b]) = (0 :: t') ++ [b] := by simp
    have hlast : ((0 : ℕ) :: (t' ++ [b])).getLast (List.cons_ne_nil 0 (t' ++ [b])) = b := by
      rw [List.getLast_congr _ _ hcons, List.getLast_concat]
    rw [hlast] at hfuel ⊢
    rw [hcons] at hchain
    rw [List.chain'_append] at hchain
    obtain ⟨hchain', _, hrel⟩ := hchain
    have hprev := hrel ((0 :: t').getLast (List.cons_ne_nil 0 t'))
      (List.getLast?_eq_getLast (0 :: t') (List.cons_ne_nil 0 t')) b rfl
    obtain ⟨hlt, hb⟩ := hprev
    have hcmd : ZopfliNodeCommandLength (nodes b) =
        ZopfliNodeCopyLength (nodes b) + (nodes b).insert_length := rfl
    obtain ⟨f, rfl⟩ : ∃ f, fuel = f + 1 := ⟨fuel - 1, by omega⟩
    have hbpos : b ≠ 0 := by omega
    have hstep : backQualDistances nodes bs mb (f + 1) b =
        (if ZopfliNodeCopyDistance (nodes b) + ZopfliNodeCopyLength (nodes b) ≤ bs + b ∧
            ZopfliNodeCopyDistance (nodes b) ≤ mb ∧ 0 < ZopfliNodeDistanceCode (nodes b)
          then [(ZopfliNodeCopyDistance (nodes b) : ℤ)] else []) ++
        backQualDistances nodes bs mb f
          (b - (ZopfliNodeCopyLength (nodes b) + (nodes b).insert_length)) := by
      simp only [backQualDistances]
      rw [if_neg hbpos]
    have hback : b - (ZopfliNodeCopyLength (nodes b) + (nodes b).insert_length) =
        (0 :: t').getLast (List.cons_ne_nil 0 t') := by
      rw [← hcmd]
      omega
    have hih := ih hchain' f (by omega)
    rw [hstep, hback, hih]
    have hclen_le : ZopfliNodeCopyLength (nodes b) ≤ b := by
      rw [hcmd] at hb
      omega
    have hiff : (ZopfliNodeCopyDistance (nodes b) + ZopfliNodeCopyLength (nodes b) ≤
          bs + b ∧ ZopfliNodeCopyDistance (nodes b) ≤ mb ∧
          0 < ZopfliNodeDistanceCode (nodes b)) ↔
        emitterQualifies nodes bs mb b := by
      unfold emitterQualifies
      rw [le_min_iff]
      constructor
      · rintro ⟨h1, h2, h3⟩
        exact ⟨⟨by omega, h2⟩, h3⟩
      · rintro ⟨⟨h1, h2⟩, h3⟩
        exact ⟨by omega, h2, h3⟩
    have hfm : (t' ++ [b]).filterMap (emitQualDist nodes bs mb) =
        t'.filterMap (emitQualDist nodes bs mb) ++
          (if emitterQualifies nodes bs mb b then
            [(ZopfliNodeCopyDistance (nodes b) : ℤ)] else []) := by
      rw [List.filterMap_append]
      congr 1
      by_cases hq : emitterQualifies nodes bs mb b
      · simp [emitQualDist, hq]
      · simp [emitQualDist, hq]
    rw [hfm, List.reverse_append]
    by_cases hq : emitterQualifies nodes bs mb b
    · rw [if_pos (hiff.mpr hq), if_pos hq]
      simp
    · rw [if_neg (fun hc => hq (hiff.mp hc)), if_neg hq]
      simp

/-- Claim C5, cache fidelity: for a node array satisfying the invariants
with `nodes[0].cost = 0`, running the back-trace
(`ComputeShortestPathFromNodes`) and then the emitter
(`BrotliZopfliCreateCommands`) over the resulting chain produces exactly
the distance cache that `ComputeDistanceCache` reconstructs at the chain's
end position `e` from the same starting cache: the emitter's incremental
per-command updates agree with the backward-walk reconstruction. -/
theorem BrotliZopfliCreateCommands_cache_fidelity
    (initCommand : ℕ → ℕ → ℕ → ℕ → Command) (n bs mb : ℕ)
    (hn : n < BROTLI_UINT32_MAX) (nodes : ℕ → ZopfliNode)
    (h0 : (nodes 0).u = ZNodeU.cost 0) (hinv : ZopfliNodeArrayInvariant nodes n)
    (cache : DistCache) (lil nl : ℕ) :
    ∃ F m e cmds' cacheF lilF nlF,
      ComputeShortestPathFromNodes n nodes = some (F, m) ∧
      findLastReachable nodes n = some e ∧
      BrotliZopfliCreateCommands initCommand n bs mb F cache lil nl =
        some (cmds', cacheF, lilF, nlF) ∧
      ComputeDistanceCache bs e mb cache nodes = some cacheF := by
  have h0' : (nodes 0).u.costVal ≠ ⊤ := by
    rw [h0]
    decide
  obtain ⟨F, m, e, hrun, hscan, hen, hecost, habove, hsent, hlen, hhead, hlast, hchain,
    hmem, hagreeF⟩ := cspfn_master n nodes hn h0' hinv
  obtain ⟨t, hps⟩ : ∃ t, followNext F m 0 = 0 :: t := by
    cases hfp : followNext F m 0 with
    | nil =>
      rw [hfp] at hhead
      simp at hhead
    | cons a t =>
      rw [hfp] at hhead
      simp at hhead
      exact ⟨t, by rw [hhead]⟩
  rw [hps] at hlen hhead hlast hchain hmem
  have hgl : (0 :: t).getLast (List.cons_ne_nil 0 t) = e := by
    have hq := List.getLast?_eq_getLast (0 :: t) (List.cons_ne_nil 0 t)
    rw [hq] at hlast
    exact Option.some.inj hlast
  have hsent' : (F ((0 :: t).getLast (List.cons_ne_nil 0 t))).u =
      ZNodeU.next BROTLI_UINT32_MAX := by
    rw [hgl]
    exact hsent
  have hmem' : ∀ x ∈ 0 :: t, x ≤ n := fun x hx => le_trans (hmem x hx) hen
  obtain ⟨cmds', lilF, nlF, hemit⟩ := BrotliZopfliCreateCommands_chain initCommand
    n bs mb hn nodes F hagreeF t hchain hsent' hmem' cache lil nl
  refine ⟨F, m, e, cmds', cacheSpecFold nodes bs mb cache t, lilF, nlF, hrun, hscan,
    hemit, ?_⟩
  rw [ComputeDistanceCache_eq_take_backQual bs e mb cache nodes n hen hecost hinv]
  congr 1
  have hweak : List.Chain' (fun x b => x < b ∧ b = x + ZopfliNodeCommandLength (nodes b))
      (0 :: t) := List.Chain'.imp (fun a b h => ⟨h.2.1, h.2.2⟩) hchain
  have hbq := backQual_of_chain nodes bs mb t hweak e (by rw [hgl])
  rw [hgl] at hbq
  rw [hbq, ofPadded_take, cacheSpecFold_eq_ofPadded]

/-- Witness for `BrotliZopfliCreateCommands_cache_fidelity` on `witNodes`
(one command, distance 1, starting cache `{7,8,9,10}`). -/
theorem BrotliZopfliCreateCommands_cache_fidelity_witness :
    ((3 : ℕ) < BROTLI_UINT32_MAX ∧ (witNodes 0).u = ZNodeU.cost 0 ∧
      ZopfliNodeArrayInvariant witNodes 3) ∧
    (∃ F m e cmds' cacheF lilF nlF,
      ComputeShortestPathFromNodes 3 witNodes = some (F, m) ∧
      findLastReachable witNodes 3 = some e ∧
      BrotliZopfliCreateCommands Command.mk 3 0 10 F ⟨7, 8, 9, 10⟩ 2 0 =
        some (cmds', cacheF, lilF, nlF) ∧
      ComputeDistanceCache 0 e 10 ⟨7, 8, 9, 10⟩ witNodes = some cacheF) :=
  ⟨⟨by decide, by decide, by decide⟩,
    BrotliZopfliCreateCommands_cache_fidelity Command.mk 3 0 10 (by decide) witNodes
      (by decide) (by decide) ⟨7, 8, 9, 10⟩ 2 0⟩

/-- Claim C3, amended: for a fixed value of the process-global flag
`brotlirep` the outputs are a pure function of the documented input tuple
(the embedded functions are functions of their arguments), and the
quality > 9 emit phase is moreover independent of the flag: changing
`brotlirep` between two runs with identical remaining inputs cannot change
its result.  The flag does, however, influence the distance-code
computation the quality ≤ 9 command construction uses, which is the part
of the claim that fails. -/
theorem ZopfliEmitPhase_ignores_global_flag :
    (∀ (g g' : Bool) (initCommand : ℕ → ℕ → ℕ → ℕ → Command)
      (num_bytes block_start max_backward_limit : ℕ) (nodes : ℕ → ZopfliNode)
      (dist_cache : DistCache) (last_insert_len num_literals : ℕ),
      ZopfliEmitPhase g initCommand num_bytes block_start max_backward_limit nodes
        dist_cache last_insert_len num_literals =
      ZopfliEmitPhase g' initCommand num_bytes block_start max_backward_limit nodes
        dist_cache last_insert_len num_literals) ∧
    (∃ (g g' : Bool) (d md : ℕ) (q : ℤ) (c : DistCache),
      ComputeDistanceCode g d md q c ≠ ComputeDistanceCode g' d md q c) :=
  ⟨fun _ _ _ _ _ _ _ _ _ _ => rfl,
    ⟨true, false, 3, 8, 11, ⟨3, 4, 5, 6⟩, by decide⟩⟩
